import Mathlib

/-!
Verification development for an LSB image-steganography engine.

The model is a shallow embedding of the engine's core pipeline
(`embed.rs` / `extract.rs` of the `lsb-core` crate): payload framing,
overflow-checked capacity arithmetic, the seeded permutation of channel-bit
slots, the chunk-partitioned parallel write, the sequential-slot read, and
the parsing/integrity protocol of extraction.

Machine integers (Rust `usize` on a 64-bit target, `u8`, `u32`) are
modelled as `Nat` with explicit `% 2^w` at the operations where wrap-around
is possible; `checked_mul`/`checked_add` are modelled as `Option`-returning
guards against `2^64`.  Fallible operations return `Except StegError`;
operations that can also hit a Rust panic (out-of-bounds slice indexing)
return an `Outcome` with a dedicated `panicked` result.

External collaborators, which the specification explicitly places out of
scope (image codec decode/encode, the cryptographic digests, and the
`rand`/`rand_pcg` PRNG behind the permutation), are modelled by concrete
executable functions that satisfy the contracts the specification states
for them: decode/encode of a lossless format form an identity pair on RGB8
surfaces, each digest is a deterministic function with the documented
output size, and the permutation oracle deterministically produces a
permutation of `[0, capacity_bits)` from `(seed, capacity_bits)` by
without-replacement sampling driven by a seeded stream.
-/

namespace Lsb

/-- Number of bits in a byte (`consts.rs`). -/
def BITS_PER_BYTE : Nat := 8

/-- Number of embeddable colour channels per pixel (`consts.rs`). -/
def EMBEDDABLE_CHANNELS : Nat := 3

/-- Chunk size, in bytes, of the partitioned parallel passes (`consts.rs`). -/
def CHUNK_SIZE : Nat := 1024

/-- Modulus of the platform-sized unsigned integer (`usize` on a 64-bit target). -/
def USIZE : Nat := 2 ^ 64

/-- Checked multiplication on `usize`: `a.checked_mul b`, `none` on overflow. -/
def checkedMul (a b : Nat) : Option Nat :=
  if a * b < USIZE then some (a * b) else none

/-- Checked addition on `usize`: `a.checked_add b`, `none` on overflow. -/
def checkedAdd (a b : Nat) : Option Nat :=
  if a + b < USIZE then some (a + b) else none

/-- The available hashing algorithms with their `repr(u8)` discriminants
(`hash.rs`). -/
inductive Hash where
  | blake3
  | sha256
  | sha512
  | sha1
deriving DecidableEq, Repr

/-- The `u8` representation of a hash tag (`Hash as u8`, `hash.rs`). -/
def Hash.toRepr : Hash → Nat
  | .blake3 => 0
  | .sha256 => 1
  | .sha512 => 2
  | .sha1 => 3

/-- Conversion from the `u8` discriminant (`Hash::from_repr`, via `strum`). -/
def Hash.fromRepr (n : Nat) : Option Hash :=
  match n with
  | 0 => some .blake3
  | 1 => some .sha256
  | 2 => some .sha512
  | 3 => some .sha1
  | _ => none

/-- Digest output size in bytes (`DynDigest::output_size`): BLAKE3 and
SHA-256 produce 32 bytes, SHA-512 produces 64, SHA-1 produces 20. -/
def outputSize : Hash → Nat
  | .blake3 => 32
  | .sha256 => 32
  | .sha512 => 64
  | .sha1 => 20

/-- Modelled from the spec: the cryptographic digest primitives
(`blake3`, `sha2`, `sha1` crates, used through `select_hasher` /
`use_hasher`) are external collaborators; the engine relies only on each
being a deterministic function of the input with the documented output
size.  This model computes `outputSize h` bytes by a simple deterministic
mixing fold over the data. -/
def hashBytes (h : Hash) (data : List Nat) : List Nat :=
  (List.range (outputSize h)).map (fun i =>
    data.foldl (fun acc b => (acc * 131 + b % 256 + 17) % 251 + 3)
      (h.toRepr * 37 + i * 59 + 11) % 256)

/-- Tests whether a byte is a UTF-8 continuation byte (`0x80..=0xBF`). -/
def utf8Cont (c : Nat) : Bool := 128 ≤ c && c ≤ 191

/-- Admissible first continuation byte of a 3-byte UTF-8 sequence, which
depends on the lead byte (excluding overlong encodings and surrogates). -/
def utf8Lead3 (b c1 : Nat) : Bool :=
  if b = 224 then 160 ≤ c1 && c1 ≤ 191
  else if b = 237 then 128 ≤ c1 && c1 ≤ 159
  else utf8Cont c1

/-- Admissible first continuation byte of a 4-byte UTF-8 sequence, which
depends on the lead byte (excluding overlongs and values above U+10FFFF). -/
def utf8Lead4 (b c1 : Nat) : Bool :=
  if b = 240 then 144 ≤ c1 && c1 ≤ 191
  else if b = 244 then 128 ≤ c1 && c1 ≤ 143
  else utf8Cont c1

/-- Modelled from the spec: validity of a byte sequence as UTF-8, the check
performed by the external `String::from_utf8` when extraction decodes the
extension.  A Rust `String` (the extension parameter of `embed`) is
exactly a byte sequence satisfying this predicate. -/
def validUtf8 : List Nat → Bool
  | [] => true
  | b :: rest =>
    if b < 128 then validUtf8 rest
    else if b < 194 then false
    else if b ≤ 223 then
      match rest with
      | c1 :: r => utf8Cont c1 && validUtf8 r
      | [] => false
    else if b ≤ 239 then
      match rest with
      | c1 :: c2 :: r => utf8Lead3 b c1 && utf8Cont c2 && validUtf8 r
      | _ => false
    else if b ≤ 244 then
      match rest with
      | c1 :: c2 :: c3 :: r => utf8Lead4 b c1 && utf8Cont c2 && utf8Cont c3 && validUtf8 r
      | _ => false
    else false

/-- Error taxonomy of the engine (`error.rs`).  The Rust enum carries
diagnostic message strings; no code path inspects them, so the model
elides them and keeps only the variant. -/
inductive StegError where
  | invalidLsbValue
  | imageProcessing
  | formatDetection
  | extensionTooLong
  | insufficientCapacity
  | payloadParse
  | checksumMismatch
  | calculationOverflow
  | capacityExceedsUsizeMax
  | hashFlagParse
  | unsupportedFormat
  | ioError
deriving DecidableEq, Repr

/-- Result of an operation that may also hit a Rust panic (out-of-bounds
slice indexing): either a value, a returned `StegError`, or a panic. -/
inductive Outcome (α : Type) where
  | ok : α → Outcome α
  | err : StegError → Outcome α
  | panicked : Outcome α
deriving DecidableEq, Repr

/-- Image output formats relevant to the engine (`image::ImageFormat`). -/
inductive ImageFormat where
  | png
  | webp
  | pnm
  | tiff
  | tga
  | bmp
  | ico
  | hdr
  | farbfeld
  | qoi
  | jpeg
  | gif
  | avif
deriving DecidableEq, BEq, Repr

/-- The lossless formats accepted for embedding (`image.rs`). -/
def LOSSLESS_FORMATS : List ImageFormat :=
  [.png, .webp, .pnm, .tiff, .tga, .bmp, .ico, .hdr, .farbfeld, .qoi]

/-- A decoded RGB8 surface: `width`/`height` in pixels and the row-major
byte plane (`RgbImage` of the `image` crate, viewed through `Deref` as its
subpixel byte slice).  `data i` is the byte at flat index `i`; indices at
and beyond `3 * width * height` are not part of the surface.  The external
decoder guarantees `u32` dimensions and an in-memory buffer; theorems
state those bounds as hypotheses where they matter. -/
structure RgbImage where
  width : Nat
  height : Nat
  data : Nat → Nat

/-- Byte length of the surface (`image.len()`, the subpixel buffer length
`width * height * 3`). -/
def imageLen (img : RgbImage) : Nat := img.width * img.height * 3

/-- Little-endian 4-byte encoding of a `u32` (`u32::to_le_bytes`). -/
def toLe4 (n : Nat) : List Nat :=
  [n % 256, n / 256 % 256, n / 65536 % 256, n / 16777216 % 256]

/-- Little-endian 4-byte decoding to a `u32` (`u32::from_le_bytes`). -/
def fromLe4 (bs : List Nat) : Nat :=
  bs.getD 0 0 + bs.getD 1 0 * 256 + bs.getD 2 0 * 65536 + bs.getD 3 0 * 16777216

theorem fromLe4_toLe4 (n : Nat) (hn : n < 2 ^ 32) : fromLe4 (toLe4 n) = n := by
  simp only [toLe4, fromLe4, List.getD, List.get?, Option.getD_some]
  omega

theorem toLe4_length (n : Nat) : (toLe4 n).length = 4 := rfl

theorem toLe4_lt (n : Nat) : ∀ b ∈ toLe4 n, b < 256 := by
  intro b hb
  simp only [toLe4, List.mem_cons, List.not_mem_nil, or_false] at hb
  rcases hb with h | h | h | h <;> omega

/-- Modelled from the spec: the seeded PRNG (`Pcg64Mcg::seed_from_u64` and
its output stream, external `rand_pcg`/`rand` crates) is modelled as a
deterministic stream of 64-bit words indexed by draw number.  The
engine's correctness depends only on the contract of section 4.2 of the
specification: the stream, and hence the permutation below, is a pure
function of the seed, reproduced identically by embed and extract. -/
def rngStream (seed : Nat) (k : Nat) : Nat :=
  ((seed % USIZE + 11400714819323198485) * (2 * k + 1)
    + k * 13787848793156543929 + 2654435761) % USIZE

/-- One pass of without-replacement sampling: repeatedly pick the
`r k % v.length`-th remaining element and remove it.  `fuel` is a
structural bound set to the initial length. -/
def sampleGo (r : Nat → Nat) : Nat → Nat → List Nat → List Nat
  | _, 0, _ => []
  | _, _ + 1, [] => []
  | k, fuel + 1, a :: v =>
    let j := r k % (a :: v).length
    (a :: v).getD j 0 :: sampleGo r (k + 1) fuel ((a :: v).eraseIdx j)

/-- Modelled from the spec: `sample(&mut rng, n, n)` of the `rand` crate —
without-replacement sampling of all `n` indices from `[0, n)`, equivalent
to drawing a full uniform random permutation of `[0, n)` (specification,
section 4.2). -/
def samplePerm (r : Nat → Nat) (n : Nat) : List Nat :=
  sampleGo r 0 n (List.range n)

/-- The permutation oracle (`generate_order` in `embed.rs`, and the
identical `sample` invocation in `read_bytes` of `extract.rs`): seed the
PRNG from the 64-bit seed and sample all `capacityBits` indices. -/
def generate_order (seed capacityBits : Nat) : List Nat :=
  samplePerm (rngStream seed) capacityBits

/-- Indexing into the sampled order (`IndexVec::index`). -/
def idx (l : List Nat) (i : Nat) : Nat := l.getD i 0

theorem perm_cons_eraseIdx (v : List Nat) (j : Nat) (hj : j < v.length) :
    (v.getD j 0 :: v.eraseIdx j).Perm v := by
  induction v generalizing j with
  | nil => simp at hj
  | cons a t ih =>
    cases j with
    | zero => simp [List.eraseIdx]
    | succ j =>
      simp only [List.length_cons, Nat.succ_lt_succ_iff] at hj
      have htj : (a :: t).getD (j + 1) 0 = t.getD j 0 := by
        simp [List.getD, List.get?]
      rw [htj]
      show (t.getD j 0 :: a :: t.eraseIdx j).Perm (a :: t)
      exact (List.Perm.swap a (t.getD j 0) (t.eraseIdx j)).trans ((ih j hj).cons a)

theorem sampleGo_perm (r : Nat → Nat) :
    ∀ (fuel : Nat) (k : Nat) (v : List Nat), v.length ≤ fuel →
      (sampleGo r k fuel v).Perm v := by
  intro fuel
  induction fuel with
  | zero =>
    intro k v hv
    have : v = [] := List.eq_nil_of_length_eq_zero (Nat.le_zero.mp hv)
    subst this
    simp [sampleGo]
  | succ fuel ih =>
    intro k v hv
    match v with
    | [] => simp [sampleGo]
    | a :: t =>
      show ((a :: t).getD (r k % (a :: t).length) 0 ::
          sampleGo r (k + 1) fuel ((a :: t).eraseIdx (r k % (a :: t).length))).Perm (a :: t)
      have hj : r k % (a :: t).length < (a :: t).length :=
        Nat.mod_lt _ (by simp)
      have hlen : ((a :: t).eraseIdx (r k % (a :: t).length)).length ≤ fuel := by
        have := List.length_eraseIdx_add_one hj
        simp only [List.length_cons] at *
        omega
      exact ((ih (k + 1) _ hlen).cons _).trans (perm_cons_eraseIdx _ _ hj)

theorem samplePerm_perm (r : Nat → Nat) (n : Nat) :
    (samplePerm r n).Perm (List.range n) :=
  sampleGo_perm r n 0 (List.range n) (by simp)

theorem samplePerm_length (r : Nat → Nat) (n : Nat) :
    (samplePerm r n).length = n := by
  have := (samplePerm_perm r n).length_eq
  simpa using this

theorem samplePerm_nodup (r : Nat → Nat) (n : Nat) :
    (samplePerm r n).Nodup :=
  (samplePerm_perm r n).nodup_iff.mpr (List.nodup_range n)

theorem samplePerm_mem_lt (r : Nat → Nat) (n : Nat) {x : Nat}
    (hx : x ∈ samplePerm r n) : x < n := by
  have := (samplePerm_perm r n).mem_iff.mp hx
  simpa using this

theorem generate_order_length (seed n : Nat) : (generate_order seed n).length = n :=
  samplePerm_length _ n

theorem idx_lt (seed n i : Nat) (hi : i < n) : idx (generate_order seed n) i < n := by
  have hl : i < (generate_order seed n).length := by
    rw [generate_order_length]; exact hi
  have : idx (generate_order seed n) i ∈ generate_order seed n := by
    rw [idx, List.getD_eq_getElem _ _ hl]
    exact List.getElem_mem _
  exact samplePerm_mem_lt _ n this

theorem idx_injOn (seed n : Nat) {i j : Nat} (hi : i < n) (hj : j < n)
    (h : idx (generate_order seed n) i = idx (generate_order seed n) j) : i = j := by
  have hli : i < (generate_order seed n).length := by rw [generate_order_length]; exact hi
  have hlj : j < (generate_order seed n).length := by rw [generate_order_length]; exact hj
  have hnd : (generate_order seed n).Nodup := samplePerm_nodup _ n
  rw [idx, idx, List.getD_eq_getElem _ _ hli, List.getD_eq_getElem _ _ hlj] at h
  by_contra hne
  exact (List.Nodup.getElem_inj_iff hnd).mp h |> hne

/-- Payload framer (`build_payload` in `embed.rs`): `[ext_len (u8)] ++
extension ++ [hash_flag (u8)] ++ checksum ++ input`, prefixed by the
little-endian `u32` byte count of everything after the prefix.
`ExtensionTooLong` when the extension length does not fit a `u8`;
`CalculationOverflow` when the framed length after the prefix does not fit
a `u32`. -/
def build_payload (input extension : List Nat) (h : Hash) : Except StegError (List Nat) :=
  if 255 < extension.length then .error .extensionTooLong
  else
    let checksum := hashBytes h input
    let payload := extension.length :: extension ++ h.toRepr :: checksum ++ input
    if 4294967296 ≤ payload.length then .error .calculationOverflow
    else .ok (toLe4 payload.length ++ payload)

/-- Total value of the `build_payload` result, defaulting to `[]` on error.
Used to name the framed payload of a concrete successful build. -/
def buildOk (input extension : List Nat) (h : Hash) : List Nat :=
  match build_payload input extension h with
  | .ok total => total
  | .error _ => []

/-- The on-image byte layout of the framed payload, written out as the
specification's section 4.3 lists it: a 4-byte little-endian length prefix
counting every byte after itself, then `ext_len`, the extension bytes, the
hash tag, the checksum `H(data)`, and the data. -/
def framedPayload (input ext : List Nat) (h : Hash) : List Nat :=
  toLe4 (2 + ext.length + outputSize h + input.length)
    ++ (ext.length :: (ext ++ (h.toRepr :: (hashBytes h input ++ input))))

/-- Source bit `i` of the framed payload, read MSB-first within each byte:
`(total[i / 8] >> (7 - i % 8)) & 1` (`embed.rs` lines 125-129,
`extract.rs` mirrors the convention on assembly). -/
def bitOf (total : List Nat) (i : Nat) : Nat :=
  (total.getD (i / BITS_PER_BYTE) 0 >>> (BITS_PER_BYTE - 1 - i % BITS_PER_BYTE)) &&& 1

/-- Write bit `bit` at channel-bit position `k` of the byte `cur`
(`chunk[bit_in_chunk] = (chunk[bit_in_chunk] & mask) | (bit << bit_in_channel)`
with the `u8` mask `!(1 << bit_in_channel)`). -/
def writeBitByte (cur k bit : Nat) : Nat :=
  (cur &&& (255 ^^^ (1 <<< k))) ||| (bit <<< k)

/-- Flat surface-byte index of the channel byte holding slot `s`, by the
row-major accessor of `read_bytes` (`extract.rs` lines 168-178): with
`width_bits = W * 3 * lsbs`, `y = s / width_bits`,
`x = (s % width_bits) / (3 * lsbs)`,
`channel = ((s % width_bits) % (3 * lsbs)) / lsbs`, and the pixel plane is
row-major, so the byte index is `(y * W + x) * 3 + channel`. -/
def slotByteIdx (w l s : Nat) : Nat :=
  (s / (w * EMBEDDABLE_CHANNELS * l) * w
    + s % (w * EMBEDDABLE_CHANNELS * l) / (EMBEDDABLE_CHANNELS * l)) * EMBEDDABLE_CHANNELS
    + s % (w * EMBEDDABLE_CHANNELS * l) % (EMBEDDABLE_CHANNELS * l) / l

/-- Bit position within the channel byte of slot `s`
(`bit_in_channel = bit_in_pixel % lsbs`, `extract.rs` line 176). -/
def slotBitIdx (w l s : Nat) : Nat :=
  s % (w * EMBEDDABLE_CHANNELS * l) % (EMBEDDABLE_CHANNELS * l) % l

/-- Read one channel bit of the surface at slot `s`
(`(pixel[channel] >> bit_in_channel) & 1`, `extract.rs` line 180). -/
def readBitAt (img : RgbImage) (l s : Nat) : Nat :=
  (img.data (slotByteIdx img.width l s) >>> slotBitIdx img.width l s) &&& 1

/-- The slot-sorted inverse table of `embed_bytes` (`embed.rs` lines
106-112): pairs `(order[i], i)` for `i` below `total_len_bits`, sorted by
the slot component.  `par_sort_by_key` is modelled by insertion sort; the
keys are distinct, so any sort produces the same list. -/
def inversePairs (ord : List Nat) (tb : Nat) : List (Nat × Nat) :=
  ((ord.take tb).enum).map (fun p => (p.2, p.1))

/-- Keys-ordered comparison used to sort the inverse table. -/
def keyLe (p q : Nat × Nat) : Prop := p.1 ≤ q.1

instance : DecidableRel keyLe := fun p q => Nat.decLe p.1 q.1

instance : IsTotal (Nat × Nat) keyLe := ⟨fun p q => Nat.le_total p.1 q.1⟩

instance : IsTrans (Nat × Nat) keyLe := ⟨fun _ _ _ => Nat.le_trans⟩

/-- The sorted inverse table. -/
def inverseOrd (ord : List Nat) (tb : Nat) : List (Nat × Nat) :=
  List.insertionSort keyLe (inversePairs ord tb)

/-- Insertion point of `start` when equal keys compare greater
(`bounds` in `embed.rs`, first binary search): on a slice sorted by key
this is the number of entries with key strictly below `start`. -/
def boundsLower (inv : List (Nat × Nat)) (start : Nat) : Nat :=
  inv.countP (fun p => p.1 < start)

/-- Insertion point of `stop` when equal keys compare less (`bounds` in
`embed.rs`, second binary search): on a slice sorted by key this is the
number of entries with key at most `stop`. -/
def boundsUpper (inv : List (Nat × Nat)) (stop : Nat) : Nat :=
  inv.countP (fun p => p.1 ≤ stop)

/-- The chunk-partitioned parallel write of `embed_bytes` (`embed.rs`
lines 99-140), expressed per output byte: byte `b` belongs to chunk
`b / CHUNK_SIZE`; that chunk's worker binary-searches the sorted inverse
table for the entries whose slot lies in
`[index * CHUNK_SIZE * lsbs, index * CHUNK_SIZE * lsbs + CHUNK_SIZE * lsbs - 1]`
and applies, in table order, each entry's masked bit write to the chunk
byte `bit_index / lsbs % CHUNK_SIZE`; the value of byte `b` is the result
of the writes of its own chunk that target `b`.  The two `usize` products
`image.len() * lsbs` (line 100) and `total.len() * BITS_PER_BYTE`
(line 104) are unchecked and therefore wrap. -/
def chunkWriteByte (inv : List (Nat × Nat)) (total : List Nat) (lsbs : Nat)
    (init b : Nat) : Nat :=
  let index := b / CHUNK_SIZE
  let start := index * CHUNK_SIZE * lsbs
  let stop := start + CHUNK_SIZE * lsbs - 1
  let lower := boundsLower inv start
  let upper := boundsUpper inv stop
  List.foldl
    (fun cur p =>
      if index * CHUNK_SIZE + p.1 / lsbs % CHUNK_SIZE = b then
        writeBitByte cur (p.1 % lsbs) (bitOf total p.2)
      else cur)
    init ((inv.drop lower).take (upper - lower))

def embed_bytes (image : RgbImage) (total : List Nat) (lsbs seed : Nat) : RgbImage :=
  let capacityBits := imageLen image * lsbs % USIZE
  let ord := generate_order seed capacityBits
  let totalLenBits := total.length * BITS_PER_BYTE % USIZE
  let inv := inverseOrd ord totalLenBits
  { image with data := fun b =>
      if b < imageLen image then chunkWriteByte inv total lsbs (image.data b) b
      else image.data b }

/-- Top-level embed driver (`embed` in `embed.rs`).  The external codec is
out of scope: decoding the container and encoding the result with a
lossless format are modelled as the identity on surfaces, so the driver
consumes and produces an `RgbImage`.  `capacity_bits` is the unchecked
`usize` product `image.len() * lsbs` (line 83) and so wraps on overflow,
while `total_len_bits` is overflow-checked (line 68). -/
def embed (input extension : List Nat) (container : RgbImage) (lsbs : Nat)
    (h : Hash) (seed : Nat) (fmt : ImageFormat) : Except StegError RgbImage :=
  if lsbs = 0 ∨ BITS_PER_BYTE < lsbs then .error .invalidLsbValue
  else if ¬ LOSSLESS_FORMATS.contains fmt then .error .unsupportedFormat
  else
    match build_payload input extension h with
    | .error e => .error e
    | .ok total =>
      match checkedMul total.length BITS_PER_BYTE with
      | none => .error .calculationOverflow
      | some totalLenBits =>
        let capacityBits := imageLen container * lsbs % USIZE
        if capacityBits < totalLenBits then .error .insufficientCapacity
        else .ok (embed_bytes container total lsbs seed)

/-- Reference bit-plane write, following the specification's words
(sections 4.4 and the embed driver step 6): source bit `i` of the framed
payload, read MSB-first, is written to slot `order[i]`, sequentially for
`i` from `0` to `total_bits - 1`, each write replacing the
`bit_in_channel`-th bit of the channel byte addressed by the row-major
slot coordinates.  This definition exists to be compared with the
chunk-partitioned `embed_bytes` of the source. -/
def refWriteStep (w lsbs : Nat) (ord : List Nat) (total : List Nat)
    (d : Nat → Nat) (i : Nat) : Nat → Nat :=
  let s := idx ord i
  let target := slotByteIdx w lsbs s
  fun b =>
    if b = target then writeBitByte (d target) (slotBitIdx w lsbs s) (bitOf total i)
    else d b

def referenceEmbedBytes (image : RgbImage) (total : List Nat) (lsbs seed : Nat) : RgbImage :=
  let capacityBits := image.width * EMBEDDABLE_CHANNELS * lsbs * image.height
  let ord := generate_order seed capacityBits
  let bits := List.range (total.length * BITS_PER_BYTE)
  { image with data := List.foldl (refWriteStep image.width lsbs ord total) image.data bits }

/-- One assembled output byte of `read_bytes`: for bit offsets
`o = 0..7`, compute the checked sequential index `k * 8 + o`, look the
destination slot up in the order, read its channel bit, and shift it into
the `u8` accumulator MSB-first (`*byte = (*byte << 1) | bit`,
`extract.rs` lines 157-181). -/
def readByteAt (img : RgbImage) (lsbs : Nat) (ord : List Nat) (k : Nat) :
    Except StegError Nat :=
  (List.range BITS_PER_BYTE).foldlM
    (fun acc o =>
      match checkedMul k BITS_PER_BYTE with
      | none => .error .calculationOverflow
      | some kb =>
        match checkedAdd kb o with
        | none => .error .calculationOverflow
        | some sSeq => .ok (acc * 2 % 256 ||| readBitAt img lsbs (idx ord sSeq)))
    0

/-- The value `readByteAt` assembles when no overflow interrupts it: the
eight channel bits at slots `order[k * 8 + o]`, `o = 0..7`, shifted into a
`u8` MSB-first. -/
def readByteVal (img : RgbImage) (lsbs : Nat) (ord : List Nat) (k : Nat) : Nat :=
  (List.range BITS_PER_BYTE).foldl
    (fun acc o => acc * 2 % 256 ||| readBitAt img lsbs (idx ord (k * BITS_PER_BYTE + o))) 0

/-- Sequentially read the requested bytes. -/
def readBytesGo (img : RgbImage) (lsbs : Nat) (ord : List Nat) :
    List Nat → Except StegError (List Nat)
  | [] => .ok []
  | k :: ks =>
    match readByteAt img lsbs ord k with
    | .error e => .error e
    | .ok b =>
      match readBytesGo img lsbs ord ks with
      | .error e => .error e
      | .ok bs => .ok (b :: bs)

/-- The slot-plane reader (`read_bytes` in `extract.rs`): overflow-checked
geometry, capacity check, the seeded permutation over all
`capacity_bits`, then one assembled byte per output index.  The chunking
of the output buffer only re-indexes the same sequential byte positions
(`byte_index = index * CHUNK_SIZE + byte_index`), so the model iterates
the global byte indices directly. -/
def read_bytes (container : RgbImage) (length lsbs seed : Nat) :
    Except StegError (List Nat) :=
  match checkedMul container.width EMBEDDABLE_CHANNELS with
  | none => .error .calculationOverflow
  | some w3 =>
    match checkedMul w3 lsbs with
    | none => .error .calculationOverflow
    | some widthBits =>
      match checkedMul widthBits container.height with
      | none => .error .calculationOverflow
      | some capacityBits =>
        match checkedMul length BITS_PER_BYTE with
        | none => .error .calculationOverflow
        | some lengthBits =>
          if capacityBits < lengthBits then .error .insufficientCapacity
          else
            let ord := generate_order seed capacityBits
            readBytesGo container lsbs ord (List.range length)

/-- Length recovery of the extract driver (`extract_length` in
`extract.rs`): reject surfaces of fewer than 4 bytes, read the 4-byte
little-endian length prefix, and reject lengths whose framed region would
not fit the surface byte count (`image.len()`). -/
def extract_length (image : RgbImage) (lsbs seed : Nat) : Except StegError Nat :=
  let capacityBytes := imageLen image
  if capacityBytes < 4 then .error .insufficientCapacity
  else
    match read_bytes image 4 lsbs seed with
    | .error e => .error e
    | .ok bs =>
      let length := fromLe4 bs
      if capacityBytes < length + 4 then .error .insufficientCapacity
      else .ok length

/-- Payload parsing of the extract driver (`extract_payload` in
`extract.rs`): read the framed region, discard the 4-byte prefix, then
slice `ext_len`, the extension (UTF-8 validated), the hash tag, the
checksum, and the data, and verify the checksum.  Each Rust slice
indexing that can fall out of bounds is modelled by an explicit bounds
test whose failure is a panic. -/
def extract_payload (image : RgbImage) (length lsbs seed : Nat) :
    Outcome (List Nat × List Nat) :=
  match read_bytes image (length + 4) lsbs seed with
  | .error e => .err e
  | .ok payload0 =>
    match payload0.drop 4 with
    | [] => .panicked
    | extLen :: p2 =>
      if p2.length < extLen then .panicked
      else
        let extBytes := p2.take extLen
        if validUtf8 extBytes then
          match p2.drop extLen with
          | [] => .panicked
          | tag :: p4 =>
            match Hash.fromRepr tag with
            | none => .err .hashFlagParse
            | some h =>
              if p4.length < outputSize h then .panicked
              else
                let ck := p4.take (outputSize h)
                let data := p4.drop (outputSize h)
                if hashBytes h data = ck then .ok (data, extBytes)
                else .err .checksumMismatch
        else .err .payloadParse

/-- Top-level extract driver (`extract` in `extract.rs`).  The external
codec decode is modelled as the identity, so the driver consumes the
decoded surface directly. -/
def extract (image : RgbImage) (lsbs seed : Nat) : Outcome (List Nat × List Nat) :=
  match extract_length image lsbs seed with
  | .error e => .err e
  | .ok length => extract_payload image length lsbs seed

/-- An all-zero surface of the given dimensions, used for concrete
instantiations. -/
def zeroImage (w h : Nat) : RgbImage := ⟨w, h, fun _ => 0⟩

/-- A surface with `2^31 × 2^31` pixels (dimensions fit `u32`), whose
capacity product `image.len() * lsbs` overflows `usize` at `lsbs = 8`:
`3 * 2^62 * 8 = 3 * 2^65 ≡ 0 (mod 2^64)`. -/
def hugeImage : RgbImage := ⟨2147483648, 2147483648, fun _ => 0⟩

/- Bit-level lemmas about the masked single-bit write. -/

theorem testBit_shiftLeft_small {bit k j : Nat} (hb : bit ≤ 1) :
    (bit <<< k).testBit j = (decide (k ≤ j) && decide (j = k) && decide (bit = 1)) := by
  interval_cases bit
  · simp [Nat.zero_shiftLeft]
  · have h1 : (1 : Nat) <<< k = 2 ^ k := by rw [Nat.shiftLeft_eq, Nat.one_mul]
    rw [h1, Nat.testBit_two_pow]
    by_cases h : j = k
    · subst h
      simp
    · simp [h, Ne.symm h]

theorem testBit_mask (k j : Nat) :
    ((255 : Nat) ^^^ (1 <<< k)).testBit j = (decide (j < 8) != decide (k = j)) := by
  have h255 : (255 : Nat) = 2 ^ 8 - 1 := rfl
  have h1 : (1 : Nat) <<< k = 2 ^ k := by rw [Nat.shiftLeft_eq, Nat.one_mul]
  rw [Nat.testBit_xor, h255, Nat.testBit_two_pow_sub_one, h1, Nat.testBit_two_pow]

theorem testBit_writeBitByte_self {z k bit : Nat} (hk : k < 8) (hb : bit ≤ 1) :
    (writeBitByte z k bit).testBit k = decide (bit = 1) := by
  rw [writeBitByte, Nat.testBit_or, Nat.testBit_and, testBit_mask,
    testBit_shiftLeft_small hb]
  simp [hk]

theorem testBit_writeBitByte_ne {z k bit j : Nat} (hb : bit ≤ 1) (hj : j ≠ k)
    (hjlt : j < 8) : (writeBitByte z k bit).testBit j = z.testBit j := by
  rw [writeBitByte, Nat.testBit_or, Nat.testBit_and, testBit_mask,
    testBit_shiftLeft_small hb]
  simp [hjlt, hj, Ne.symm hj]

theorem testBit_writeBitByte_high {z k bit j : Nat} (hk : k < 8) (hb : bit ≤ 1)
    (hj : 8 ≤ j) : (writeBitByte z k bit).testBit j = false := by
  rw [writeBitByte, Nat.testBit_or, Nat.testBit_and, testBit_mask,
    testBit_shiftLeft_small hb]
  have h1 : decide (j < 8) = false := by simp; omega
  have h2 : decide (k = j) = false := by simp; omega
  have h3 : decide (j = k) = false := by simp; omega
  simp [h1, h2, h3]

theorem writeBitByte_lt_256 {z k bit : Nat} (hk : k < 8) (hb : bit ≤ 1) :
    writeBitByte z k bit < 256 := by
  have h256 : (256 : Nat) = 2 ^ 8 := rfl
  rw [h256]
  apply Nat.lt_pow_two_of_testBit
  intro i hi
  exact testBit_writeBitByte_high hk hb hi

theorem writeBitByte_comm {z k1 k2 b1 b2 : Nat} (h12 : k1 ≠ k2) (hk1 : k1 < 8)
    (hk2 : k2 < 8) (hb1 : b1 ≤ 1) (hb2 : b2 ≤ 1) :
    writeBitByte (writeBitByte z k1 b1) k2 b2
      = writeBitByte (writeBitByte z k2 b2) k1 b1 := by
  apply Nat.eq_of_testBit_eq
  intro j
  rcases Nat.lt_or_ge j 8 with hj | hj
  · by_cases e1 : j = k1
    · subst e1
      rw [testBit_writeBitByte_ne hb2 h12 hj, testBit_writeBitByte_self hk1 hb1,
        testBit_writeBitByte_self hk1 hb1]
    · by_cases e2 : j = k2
      · subst e2
        rw [testBit_writeBitByte_self hk2 hb2, testBit_writeBitByte_ne hb1 (Ne.symm h12) hj,
          testBit_writeBitByte_self hk2 hb2]
      · rw [testBit_writeBitByte_ne hb2 e2 hj, testBit_writeBitByte_ne hb1 e1 hj,
          testBit_writeBitByte_ne hb1 e1 hj, testBit_writeBitByte_ne hb2 e2 hj]
  · rw [testBit_writeBitByte_high hk2 hb2 hj, testBit_writeBitByte_high hk1 hb1 hj]

theorem shiftRight_and_one (v k : Nat) :
    (v >>> k) &&& 1 = if v.testBit k then 1 else 0 := by
  rw [Nat.and_one_is_mod, Nat.testBit_to_div_mod, Nat.shiftRight_eq_div_pow]
  rcases Nat.mod_two_eq_zero_or_one (v / 2 ^ k) with h | h <;> simp [h]

theorem and_one_le_one (v : Nat) : v &&& 1 ≤ 1 := Nat.and_le_right

theorem bitOf_le_one (total : List Nat) (i : Nat) : bitOf total i ≤ 1 :=
  Nat.and_le_right

theorem readBitAt_le_one (img : RgbImage) (l s : Nat) : readBitAt img l s ≤ 1 :=
  Nat.and_le_right

theorem bitOf_testBit (total : List Nat) (i : Nat) :
    bitOf total i
      = if (total.getD (i / 8) 0).testBit (7 - i % 8) then 1 else 0 := by
  rw [bitOf, BITS_PER_BYTE, shiftRight_and_one]

theorem readBitAt_testBit (img : RgbImage) (l s : Nat) :
    readBitAt img l s
      = if (img.data (slotByteIdx img.width l s)).testBit (slotBitIdx img.width l s)
        then 1 else 0 := by
  rw [readBitAt, shiftRight_and_one]

set_option maxRecDepth 4096 in
/-- MSB-first reassembly: shifting the eight bits of a byte value below 256
into an accumulator, most significant first, reproduces the byte. -/
theorem reconstruct_byte :
    ∀ v < 256, List.foldl (fun a o => a * 2 % 256 ||| ((v >>> (7 - o)) &&& 1)) 0
      (List.range 8) = v := by decide

/- Row-major slot arithmetic: the coordinate chain of the accessor lands on
surface byte `s / lsbs`, bit `s % lsbs`. -/

theorem slot_decomp {w l h s : Nat} (hl : 0 < l) (hs : s < w * 3 * l * h) :
    slotByteIdx w l s = s / l ∧ slotBitIdx w l s = s % l := by
  have hpos : 0 < w * 3 * l * h := Nat.lt_of_le_of_lt (Nat.zero_le s) hs
  have hwb : 0 < w * 3 * l := by
    rcases Nat.eq_zero_or_pos (w * 3 * l) with h0 | hp
    · rw [h0, Nat.zero_mul] at hpos
      omega
    · exact hp
  have h3l : 0 < 3 * l := by omega
  set wb := w * 3 * l with hwbdef
  set y := s / wb with hy
  set xb := s % wb with hxb
  set x := xb / (3 * l) with hx
  set bp := xb % (3 * l) with hbp
  set c := bp / l with hc
  set k := bp % l with hk
  have e1 : wb * y + xb = s := Nat.div_add_mod s wb
  have e2 : 3 * l * x + bp = xb := Nat.div_add_mod xb (3 * l)
  have e3 : l * c + k = bp := Nat.div_add_mod bp l
  have hkl : k < l := Nat.mod_lt _ hl
  have key : l * ((y * w + x) * 3 + c) + k = s := by
    rw [← e1, ← e2, ← e3, hwbdef]
    ring
  have hdiv : s / l = (y * w + x) * 3 + c := by
    rw [← key, Nat.mul_add_div hl]
    rw [Nat.div_eq_of_lt hkl, Nat.add_zero]
  have hmod : s % l = k := by
    rw [← key, Nat.mul_add_mod]
    exact Nat.mod_eq_of_lt hkl
  constructor
  · show (s / (w * EMBEDDABLE_CHANNELS * l) * w
        + s % (w * EMBEDDABLE_CHANNELS * l) / (EMBEDDABLE_CHANNELS * l)) * EMBEDDABLE_CHANNELS
        + s % (w * EMBEDDABLE_CHANNELS * l) % (EMBEDDABLE_CHANNELS * l) / l = s / l
    rw [hdiv]
    rfl
  · show s % (w * EMBEDDABLE_CHANNELS * l) % (EMBEDDABLE_CHANNELS * l) % l = s % l
    rw [hmod]
    rfl

theorem slotByteIdx_lt {w l h s : Nat} (hl : 0 < l) (hs : s < w * 3 * l * h) :
    slotByteIdx w l s < w * h * 3 := by
  rw [(slot_decomp hl hs).1]
  have h1 : s < l * (w * h * 3) := by
    calc s < w * 3 * l * h := hs
      _ = l * (w * h * 3) := by ring
  exact Nat.div_lt_of_lt_mul h1

/- Chunk arithmetic: the chunk a slot's write lands in, and the byte it
targets inside that chunk, compose back to the surface byte `s / lsbs`. -/

theorem chunk_recompose {l s : Nat} (hl : 0 < l) :
    s / (CHUNK_SIZE * l) * CHUNK_SIZE + s / l % CHUNK_SIZE = s / l := by
  have h1 : s / (CHUNK_SIZE * l) = s / l / CHUNK_SIZE := by
    rw [Nat.div_div_eq_div_mul, Nat.mul_comm]
  rw [h1]
  simp only [CHUNK_SIZE]
  omega

theorem chunk_pred_iff {l b s : Nat} (hl : 0 < l) :
    (b / CHUNK_SIZE * CHUNK_SIZE * l ≤ s
      ∧ s ≤ b / CHUNK_SIZE * CHUNK_SIZE * l + CHUNK_SIZE * l - 1
      ∧ b / CHUNK_SIZE * CHUNK_SIZE + s / l % CHUNK_SIZE = b)
    ↔ s / l = b := by
  simp only [CHUNK_SIZE]
  have hsl : l * (s / l) + s % l = s := Nat.div_add_mod s l
  have hr : s % l < l := Nat.mod_lt _ hl
  constructor
  · rintro ⟨h1, h2, h3⟩
    have hlow : b / 1024 * 1024 ≤ s / l := by
      have h4 : l * (b / 1024 * 1024) ≤ s := by
        have e : l * (b / 1024 * 1024) = b / 1024 * 1024 * l := by ring
        omega
      by_contra hcon
      push_neg at hcon
      have h5 : l * (s / l + 1) ≤ l * (b / 1024 * 1024) := Nat.mul_le_mul_left l hcon
      have h6 : l * (s / l + 1) = l * (s / l) + l := by ring
      omega
    have hupp : s / l < b / 1024 * 1024 + 1024 := by
      have h4 : s < l * (b / 1024 * 1024 + 1024) := by
        have e : l * (b / 1024 * 1024 + 1024) = b / 1024 * 1024 * l + 1024 * l := by ring
        have hCl : 0 < 1024 * l := by positivity
        omega
      by_contra hcon
      push_neg at hcon
      have h5 : l * (b / 1024 * 1024 + 1024) ≤ l * (s / l) := Nat.mul_le_mul_left l hcon
      omega
    omega
  · intro h
    subst h
    refine ⟨?_, ?_, ?_⟩
    · have h1 : l * (s / l / 1024 * 1024) ≤ l * (s / l) :=
        Nat.mul_le_mul_left l (by omega)
      have e : l * (s / l / 1024 * 1024) = s / l / 1024 * 1024 * l := by ring
      omega
    · have h1 : s / l + 1 ≤ s / l / 1024 * 1024 + 1024 := by omega
      have h2 : l * (s / l + 1) ≤ l * (s / l / 1024 * 1024 + 1024) :=
        Nat.mul_le_mul_left l h1
      have e1 : l * (s / l + 1) = l * (s / l) + l := by ring
      have e2 : l * (s / l / 1024 * 1024 + 1024) = s / l / 1024 * 1024 * l + 1024 * l := by
        ring
      have hCl : 0 < 1024 * l := by positivity
      omega
    · omega

/- List plumbing: conditional folds as folds over filters, the slice the
binary-searched bounds select out of a key-sorted list, and the inverse
table as an indexed enumeration. -/

theorem foldl_if_filter {α β : Type} (g : β → α → β) (Q : α → Bool) :
    ∀ (L : List α) (init : β),
      L.foldl (fun c p => if Q p then g c p else c) init
        = (L.filter Q).foldl g init := by
  intro L
  induction L with
  | nil => intro init; rfl
  | cons a T ih =>
    intro init
    by_cases h : Q a
    · rw [List.filter_cons_of_pos h]
      simp only [List.foldl_cons, h, if_true]
      exact ih (g init a)
    · rw [List.filter_cons_of_neg h]
      simp only [List.foldl_cons, h, if_false]
      exact ih init

theorem foldl_skip_all {α β : Type} (g : β → α → β) (Q : α → Bool) (L : List α)
    (init : β) (h : ∀ p ∈ L, Q p = false) :
    L.foldl (fun c p => if Q p then g c p else c) init = init := by
  rw [foldl_if_filter]
  have : L.filter Q = [] := List.filter_eq_nil.mpr (by
    intro a ha
    rw [h a ha]
    simp)
  rw [this]
  rfl

theorem sorted_segment :
    ∀ (L : List (Nat × Nat)), L.Sorted keyLe → ∀ (a e : Nat), a ≤ e →
      ((L.drop (L.countP (fun p => decide (p.1 < a)))).take
          (L.countP (fun p => decide (p.1 ≤ e)) - L.countP (fun p => decide (p.1 < a))))
        = L.filter (fun p => decide (a ≤ p.1) && decide (p.1 ≤ e)) := by
  intro L
  induction L with
  | nil => intro _ a e _; rfl
  | cons hd T ih =>
    intro hs a e hae
    obtain ⟨hhead, hT⟩ := List.sorted_cons.mp hs
    by_cases hc : hd.1 < a
    · have hce : hd.1 ≤ e := by omega
      have hna : ¬ a ≤ hd.1 := by omega
      simp only [List.countP_cons, List.filter_cons]
      simp only [hc, hce, hna, decide_eq_true_eq, if_true, if_false, Bool.false_and,
        Bool.and_eq_true, false_and, if_pos, decide_eq_false_iff_not, not_false_iff]
      have hstep : ∀ c1 c2 : Nat,
          List.take (c2 + 1 - (c1 + 1)) (List.drop (c1 + 1) (hd :: T))
            = List.take (c2 - c1) (List.drop c1 T) := by
        intro c1 c2
        rw [List.drop_succ_cons]
        congr 1
        omega
      rw [hstep]
      exact ih hT a e hae
    · have hc0 : T.countP (fun p => decide (p.1 < a)) = 0 := by
        rw [List.countP_eq_zero]
        intro q hq
        have hk := hhead q hq
        rw [keyLe] at hk
        simp only [decide_eq_true_eq]
        omega
      have ha : a ≤ hd.1 := by omega
      have ec1 : (hd :: T).countP (fun p => decide (p.1 < a)) = 0 := by
        rw [List.countP_cons, hc0]
        simp [hc]
      by_cases he : hd.1 ≤ e
      · have ec2 : (hd :: T).countP (fun p => decide (p.1 ≤ e))
            = T.countP (fun p => decide (p.1 ≤ e)) + 1 := by
          rw [List.countP_cons]
          simp [he]
        have ef : (hd :: T).filter (fun p => decide (a ≤ p.1) && decide (p.1 ≤ e))
            = hd :: T.filter (fun p => decide (a ≤ p.1) && decide (p.1 ≤ e)) := by
          rw [List.filter_cons]
          simp [ha, he]
        rw [ec1, ec2, ef, List.drop_zero, Nat.sub_zero, List.take_succ_cons]
        congr 1
        have hrec := ih hT a e hae
        rw [hc0, List.drop_zero, Nat.sub_zero] at hrec
        exact hrec
      · have hTe : T.countP (fun p => decide (p.1 ≤ e)) = 0 := by
          rw [List.countP_eq_zero]
          intro q hq
          have hk := hhead q hq
          rw [keyLe] at hk
          simp only [decide_eq_true_eq]
          omega
        have ec2 : (hd :: T).countP (fun p => decide (p.1 ≤ e)) = 0 := by
          rw [List.countP_cons, hTe]
          simp [he]
        have hfil : T.filter (fun p => decide (a ≤ p.1) && decide (p.1 ≤ e)) = [] := by
          rw [List.filter_eq_nil]
          intro q hq
          have hk := hhead q hq
          rw [keyLe] at hk
          simp only [Bool.and_eq_true, decide_eq_true_eq, not_and]
          intro _
          omega
        have ef : (hd :: T).filter (fun p => decide (a ≤ p.1) && decide (p.1 ≤ e)) = [] := by
          rw [List.filter_cons, hfil]
          simp [he]
        rw [ec1, ec2, ef]
        simp

theorem foldl_if_filter_prop {α β : Type} (g : β → α → β) (P : α → Prop)
    [DecidablePred P] :
    ∀ (L : List α) (init : β),
      L.foldl (fun c p => if P p then g c p else c) init
        = (L.filter (fun p => decide (P p))).foldl g init := by
  intro L
  induction L with
  | nil => intro init; rfl
  | cons a T ih =>
    intro init
    by_cases h : P a
    · rw [List.filter_cons_of_pos (by simp [h])]
      simp only [List.foldl_cons, h, if_true]
      exact ih (g init a)
    · rw [List.filter_cons_of_neg (by simp [h])]
      simp only [List.foldl_cons, h, if_false]
      exact ih init

theorem foldl_skip_all_prop {α β : Type} (g : β → α → β) (P : α → Prop)
    [DecidablePred P] (L : List α) (init : β) (h : ∀ p ∈ L, ¬ P p) :
    L.foldl (fun c p => if P p then g c p else c) init = init := by
  rw [foldl_if_filter_prop]
  have hnil : L.filter (fun p => decide (P p)) = [] := by
    rw [List.filter_eq_nil]
    intro a ha
    simp [h a ha]
  rw [hnil]
  rfl

theorem inversePairs_eq (ord : List Nat) (tb : Nat) (h : tb ≤ ord.length) :
    inversePairs ord tb = (List.range tb).map (fun i => (idx ord i, i)) := by
  apply List.ext_getElem
  · simp only [inversePairs, List.length_map, List.enum_length, List.length_take,
      List.length_range]
    omega
  · intro n h1 h2
    have hn : n < tb := by
      simp only [List.length_map, List.length_range] at h2
      exact h2
    have hnt : n < (ord.take tb).length := by
      simp only [List.length_take]
      omega
    simp only [inversePairs, List.getElem_map, List.getElem_enum, List.getElem_range]
    have hnl : n < ord.length := by omega
    rw [List.getElem_take]
    rw [idx, List.getD_eq_getElem ord 0 hnl]

theorem mem_inversePairs {ord : List Nat} {tb : Nat} (h : tb ≤ ord.length)
    {p : Nat × Nat} (hp : p ∈ inversePairs ord tb) :
    p = (idx ord p.2, p.2) ∧ p.2 < tb := by
  rw [inversePairs_eq ord tb h] at hp
  simp only [List.mem_map, List.mem_range] at hp
  obtain ⟨i, hi, hpe⟩ := hp
  constructor
  · rw [← hpe]
  · rw [← hpe]
    exact hi

theorem foldl_refWriteStep_apply (w l : Nat) (ord : List Nat) (total : List Nat) :
    ∀ (L : List Nat) (d0 : Nat → Nat) (b : Nat),
      (L.foldl (refWriteStep w l ord total) d0) b
        = L.foldl (fun cur i =>
            if b = slotByteIdx w l (idx ord i) then
              writeBitByte cur (slotBitIdx w l (idx ord i)) (bitOf total i)
            else cur) (d0 b) := by
  intro L
  induction L with
  | nil => intro d0 b; rfl
  | cons i T ih =>
    intro d0 b
    rw [List.foldl_cons, List.foldl_cons, ih]
    by_cases hb : b = slotByteIdx w l (idx ord i)
    · simp only [refWriteStep, hb, if_true, if_pos rfl]
    · simp only [refWriteStep, hb, if_false, if_neg hb]

/-- The combined per-byte write list: after sorting, slicing to a chunk,
and filtering to the writes that target byte `b`, the entries are exactly
the inverse-table entries whose slot has `slot / lsbs = b`. -/
theorem chunk_filter_eq {l b : Nat} (hl : 0 < l) (inv : List (Nat × Nat)) :
    ((inv.filter (fun p => decide (b / CHUNK_SIZE * CHUNK_SIZE * l ≤ p.1)
        && decide (p.1 ≤ b / CHUNK_SIZE * CHUNK_SIZE * l + CHUNK_SIZE * l - 1))).filter
      (fun p => decide (b / CHUNK_SIZE * CHUNK_SIZE + p.1 / l % CHUNK_SIZE = b)))
    = inv.filter (fun p => decide (p.1 / l = b)) := by
  rw [List.filter_filter]
  apply List.filter_congr
  intro p _
  have hd : (decide (b / CHUNK_SIZE * CHUNK_SIZE + p.1 / l % CHUNK_SIZE = b)
      && (decide (b / CHUNK_SIZE * CHUNK_SIZE * l ≤ p.1)
        && decide (p.1 ≤ b / CHUNK_SIZE * CHUNK_SIZE * l + CHUNK_SIZE * l - 1)))
      = decide ((b / CHUNK_SIZE * CHUNK_SIZE + p.1 / l % CHUNK_SIZE = b)
        ∧ (b / CHUNK_SIZE * CHUNK_SIZE * l ≤ p.1)
        ∧ (p.1 ≤ b / CHUNK_SIZE * CHUNK_SIZE * l + CHUNK_SIZE * l - 1)) := by
    rw [Bool.decide_and, Bool.decide_and]
  rw [hd]
  apply decide_eq_decide.mpr
  constructor
  · rintro ⟨hA, hB, hC⟩
    exact (chunk_pred_iff hl).mp ⟨hB, hC, hA⟩
  · intro hD
    obtain ⟨hB, hC, hA⟩ := (chunk_pred_iff hl).mpr hD
    exact ⟨hA, hB, hC⟩

theorem embed_bytes_eq_reference (image : RgbImage) (total : List Nat) (l seed : Nat)
    (hl1 : 1 ≤ l) (hl8 : l ≤ 8)
    (hcap : total.length * BITS_PER_BYTE ≤ imageLen image * l)
    (hnw : imageLen image * l < USIZE) :
    embed_bytes image total l seed = referenceEmbedBytes image total l seed := by
  have hNeq : image.width * EMBEDDABLE_CHANNELS * l * image.height = imageLen image * l := by
    rw [imageLen, EMBEDDABLE_CHANNELS]
    ring
  have hcapmod : imageLen image * l % USIZE = imageLen image * l := Nat.mod_eq_of_lt hnw
  have htbmod : total.length * BITS_PER_BYTE % USIZE = total.length * BITS_PER_BYTE :=
    Nat.mod_eq_of_lt (Nat.lt_of_le_of_lt hcap hnw)
  have hlen : (generate_order seed (imageLen image * l)).length = imageLen image * l :=
    generate_order_length _ _
  have htbN : total.length * BITS_PER_BYTE ≤ (generate_order seed (imageLen image * l)).length := by
    rw [hlen]
    exact hcap
  rw [embed_bytes, referenceEmbedBytes]
  simp only [hcapmod, htbmod, hNeq]
  congr 1
  funext b
  by_cases hb : b < imageLen image
  · rw [if_pos hb]
    rw [foldl_refWriteStep_apply]
    set N := imageLen image * l with hN
    set tb := total.length * BITS_PER_BYTE with htb
    set ord := generate_order seed N with hord
    have hinvsorted : (inverseOrd ord tb).Sorted keyLe :=
      List.sorted_insertionSort keyLe (inversePairs ord tb)
    have hperm : (inverseOrd ord tb).Perm (inversePairs ord tb) :=
      List.perm_insertionSort keyLe (inversePairs ord tb)
    have hCl : 1 ≤ CHUNK_SIZE * l := by
      rw [CHUNK_SIZE]
      omega
    have hae : b / CHUNK_SIZE * CHUNK_SIZE * l
        ≤ b / CHUNK_SIZE * CHUNK_SIZE * l + CHUNK_SIZE * l - 1 := by
      omega
    rw [chunkWriteByte]
    rw [boundsLower, boundsUpper]
    rw [sorted_segment (inverseOrd ord tb) hinvsorted _ _ hae]
    rw [foldl_if_filter_prop]
    rw [chunk_filter_eq (by omega)]
    have hl0 : 0 < l := by omega
    -- align the reference side
    have hrefside :
        (List.range tb).foldl
          (fun cur i =>
            if b = slotByteIdx image.width l (idx ord i) then
              writeBitByte cur (slotBitIdx image.width l (idx ord i)) (bitOf total i)
            else cur) (image.data b)
        = ((List.range tb).filter (fun i => decide (idx ord i / l = b))).foldl
            (fun cur i => writeBitByte cur (idx ord i % l) (bitOf total i))
            (image.data b) := by
      rw [foldl_if_filter_prop]
      have hfc : (List.range tb).filter (fun i => decide (b = slotByteIdx image.width l (idx ord i)))
          = (List.range tb).filter (fun i => decide (idx ord i / l = b)) := by
        apply List.filter_congr
        intro i hi
        have hiN : i < N := Nat.lt_of_lt_of_le (List.mem_range.mp hi) hcap
        have hsN : idx ord i < N := idx_lt seed N i hiN
        have hsN2 : idx ord i < image.width * 3 * l * image.height := by
          rw [hN] at hsN
          calc idx ord i < imageLen image * l := hsN
            _ = image.width * 3 * l * image.height := by rw [imageLen]; ring
        have hsd := (slot_decomp hl0 hsN2).1
        apply decide_eq_decide.mpr
        rw [hsd]
        exact eq_comm
      rw [hfc]
      apply List.foldl_ext
      intro cur i hi
      have hiN : i < N := by
        have := List.mem_filter.mp hi
        exact Nat.lt_of_lt_of_le (List.mem_range.mp this.1) hcap
      have hsN : idx ord i < N := idx_lt seed N i hiN
      have hsN2 : idx ord i < image.width * 3 * l * image.height := by
        rw [hN] at hsN
        calc idx ord i < imageLen image * l := hsN
          _ = image.width * 3 * l * image.height := by rw [imageLen]; ring
      rw [(slot_decomp hl0 hsN2).2]
    rw [hrefside]
    -- align the chunk side through the permutation and the mapped range
    have hmemshape : ∀ p ∈ (inverseOrd ord tb).filter (fun p => decide (p.1 / l = b)),
        p = (idx ord p.2, p.2) ∧ p.2 < tb := by
      intro p hp
      have hp1 : p ∈ inverseOrd ord tb := (List.mem_filter.mp hp).1
      have hp2 : p ∈ inversePairs ord tb := hperm.mem_iff.mp hp1
      exact mem_inversePairs htbN hp2
    have hcomm : ∀ x ∈ (inverseOrd ord tb).filter (fun p => decide (p.1 / l = b)),
        ∀ y ∈ (inverseOrd ord tb).filter (fun p => decide (p.1 / l = b)),
        ∀ (z : Nat),
          writeBitByte (writeBitByte z (x.1 % l) (bitOf total x.2)) (y.1 % l) (bitOf total y.2)
          = writeBitByte (writeBitByte z (y.1 % l) (bitOf total y.2)) (x.1 % l) (bitOf total x.2) := by
      intro x hx y hy z
      by_cases hxy : x = y
      · rw [hxy]
      · obtain ⟨hxs, hxtb⟩ := hmemshape x hx
        obtain ⟨hys, hytb⟩ := hmemshape y hy
        have hx1 : x.1 ≠ y.1 := by
          intro he
          apply hxy
          have h2 : x.2 = y.2 := by
            apply idx_injOn seed N (Nat.lt_of_lt_of_le hxtb hcap) (Nat.lt_of_lt_of_le hytb hcap)
            have ex : idx ord x.2 = x.1 := by rw [hxs]
            have ey : idx ord y.2 = y.1 := by rw [hys]
            rw [ex, ey, he]
          rw [hxs, hys, h2]
        have hdx : x.1 / l = b := by
          have := (List.mem_filter.mp hx).2
          simpa using this
        have hdy : y.1 / l = b := by
          have := (List.mem_filter.mp hy).2
          simpa using this
        have hmne : x.1 % l ≠ y.1 % l := by
          have e1 := Nat.div_add_mod x.1 l
          have e2 := Nat.div_add_mod y.1 l
          intro hm
          apply hx1
          rw [hdx] at e1
          rw [hdy] at e2
          omega
        exact writeBitByte_comm hmne (by
            have := Nat.mod_lt x.1 (y := l) hl0
            omega) (by
            have := Nat.mod_lt y.1 (y := l) hl0
            omega) (bitOf_le_one total x.2) (bitOf_le_one total y.2)
    have hpermfil : ((inverseOrd ord tb).filter (fun p => decide (p.1 / l = b))).Perm
        ((inversePairs ord tb).filter (fun p => decide (p.1 / l = b))) :=
      List.Perm.filter _ hperm
    rw [List.Perm.foldl_eq' hpermfil hcomm]
    rw [inversePairs_eq ord tb htbN]
    rw [List.filter_map]
    rw [List.foldl_map]
    rfl
  · rw [if_neg hb]
    rw [foldl_refWriteStep_apply]
    apply Eq.symm
    apply foldl_skip_all_prop
    intro i hi
    have hiN : i < imageLen image * l := Nat.lt_of_lt_of_le (List.mem_range.mp hi) hcap
    have hsN : idx (generate_order seed (imageLen image * l)) i < imageLen image * l :=
      idx_lt seed _ i hiN
    have hsN2 : idx (generate_order seed (imageLen image * l)) i
        < image.width * 3 * l * image.height := by
      calc idx (generate_order seed (imageLen image * l)) i < imageLen image * l := hsN
        _ = image.width * 3 * l * image.height := by rw [imageLen]; ring
    have hlt := slotByteIdx_lt (by omega) hsN2
    intro hcon
    rw [hcon] at hb
    apply hb
    rw [imageLen]
    exact hlt

/-- Invariant of the sequential reference write: after the first `m` source
bits are written, (i) the channel bit at each written slot holds exactly
its source bit, (ii) every channel bit whose slot was not written is
unchanged, and (iii) every byte is either untouched or a valid `u8`. -/
theorem refFold_spec (w hgt l : Nat) (ord : List Nat) (total : List Nat)
    (d0 : Nat → Nat) (hl0 : 0 < l) (hl8 : l ≤ 8)
    (hval : ∀ i, i < ord.length → idx ord i < w * 3 * l * hgt)
    (hinj : ∀ i j, i < ord.length → j < ord.length → idx ord i = idx ord j → i = j) :
    ∀ m, m ≤ ord.length →
      (∀ i, i < m →
        (List.foldl (refWriteStep w l ord total) d0 (List.range m) (idx ord i / l)).testBit
          (idx ord i % l) = decide (bitOf total i = 1))
      ∧ (∀ b k, k < 8 → (∀ i, i < m → idx ord i ≠ b * l + k) →
        (List.foldl (refWriteStep w l ord total) d0 (List.range m) b).testBit k
          = (d0 b).testBit k)
      ∧ (∀ b, List.foldl (refWriteStep w l ord total) d0 (List.range m) b = d0 b
          ∨ List.foldl (refWriteStep w l ord total) d0 (List.range m) b < 256)
      ∧ (∀ b k, l ≤ k → k < 8 →
        (List.foldl (refWriteStep w l ord total) d0 (List.range m) b).testBit k
          = (d0 b).testBit k) := by
  intro m
  induction m with
  | zero =>
    intro _
    refine ⟨?_, ?_, ?_, ?_⟩
    · intro i hi
      omega
    · intro b k _ _
      rw [List.range_zero, List.foldl_nil]
    · intro b
      left
      rw [List.range_zero, List.foldl_nil]
    · intro b k _ _
      rw [List.range_zero, List.foldl_nil]
  | succ m ih =>
    intro hm1
    have hm : m ≤ ord.length := by omega
    obtain ⟨IA, IB, IC, ID⟩ := ih hm
    set s := idx ord m with hs
    have hsN : s < w * 3 * l * hgt := hval m (by omega)
    have hsd := slot_decomp hl0 hsN
    set D := List.foldl (refWriteStep w l ord total) d0 (List.range m) with hD
    have hstep : List.foldl (refWriteStep w l ord total) d0 (List.range (m + 1))
        = refWriteStep w l ord total D m := by
      rw [List.range_succ, List.foldl_append, List.foldl_cons, List.foldl_nil]
    have hsml : s % l < 8 := by
      have := Nat.mod_lt s hl0
      omega
    have happly : ∀ b, refWriteStep w l ord total D m b
        = if b = s / l then writeBitByte (D (s / l)) (s % l) (bitOf total m)
          else D b := by
      intro b
      rw [refWriteStep]
      simp only [← hs, hsd.1, hsd.2]
    refine ⟨?_, ?_, ?_, ?_⟩
    · intro i hi
      rw [hstep, happly]
      by_cases hieq : i = m
      · subst hieq
        rw [← hs, if_pos rfl]
        exact testBit_writeBitByte_self hsml (bitOf_le_one total i)
      · have him : i < m := by omega
        set si := idx ord i with hsi
        have hsine : si ≠ s := by
          intro he
          exact hieq (hinj i m (by omega) (by omega) (by rw [← hsi, ← hs, he]))
        have hsiN : si < w * 3 * l * hgt := hval i (by omega)
        have hsiml : si % l < 8 := by
          have := Nat.mod_lt si hl0
          omega
        by_cases hbe : si / l = s / l
        · rw [if_pos hbe]
          have hmne : si % l ≠ s % l := by
            have e1 := Nat.div_add_mod si l
            have e2 := Nat.div_add_mod s l
            intro hme
            apply hsine
            rw [hbe] at e1
            omega
          rw [testBit_writeBitByte_ne (bitOf_le_one total m) hmne hsiml]
          rw [← hbe]
          exact IA i him
        · rw [if_neg hbe]
          exact IA i him
    · intro b k hk hnot
      rw [hstep, happly]
      by_cases hbs : b = s / l
      · rw [if_pos hbs]
        have hkne : k ≠ s % l := by
          intro hke
          apply hnot m (by omega)
          have e := Nat.div_add_mod s l
          have e2 : b * l = l * (s / l) := by
            rw [hbs]
            ring
          rw [← hs]
          omega
        rw [testBit_writeBitByte_ne (bitOf_le_one total m) hkne hk]
        rw [← hbs]
        exact IB b k hk (fun i hi => hnot i (by omega))
      · rw [if_neg hbs]
        exact IB b k hk (fun i hi => hnot i (by omega))
    · intro b
      rw [hstep, happly]
      by_cases hbs : b = s / l
      · rw [if_pos hbs]
        right
        exact writeBitByte_lt_256 hsml (bitOf_le_one total m)
      · rw [if_neg hbs]
        exact IC b
    · intro b k hlk hk8
      rw [hstep, happly]
      by_cases hbs : b = s / l
      · rw [if_pos hbs]
        have hkne : k ≠ s % l := by
          have := Nat.mod_lt s hl0
          omega
        rw [testBit_writeBitByte_ne (bitOf_le_one total m) hkne hk8]
        rw [← hbs]
        exact ID b k hlk hk8
      · rw [if_neg hbs]
        exact ID b k hlk hk8

/- The reader: when no geometry or index computation overflows, every
checked step succeeds and `read_bytes` returns the assembled bytes. -/

theorem readFoldAux (img : RgbImage) (l : Nat) (ord : List Nat) (k : Nat)
    (h : k * BITS_PER_BYTE + 7 < USIZE) :
    ∀ (os : List Nat) (acc : Nat), (∀ o ∈ os, o ≤ 7) →
      List.foldlM (fun acc o =>
        match checkedMul k BITS_PER_BYTE with
        | none => Except.error StegError.calculationOverflow
        | some kb =>
          match checkedAdd kb o with
          | none => Except.error StegError.calculationOverflow
          | some sSeq => Except.ok (acc * 2 % 256 ||| readBitAt img l (idx ord sSeq)))
        acc os
      = Except.ok (List.foldl
          (fun acc o => acc * 2 % 256 ||| readBitAt img l (idx ord (k * BITS_PER_BYTE + o)))
          acc os) := by
  set f : Nat → Nat → Except StegError Nat := fun acc o =>
    match checkedMul k BITS_PER_BYTE with
    | none => Except.error StegError.calculationOverflow
    | some kb =>
      match checkedAdd kb o with
      | none => Except.error StegError.calculationOverflow
      | some sSeq => Except.ok (acc * 2 % 256 ||| readBitAt img l (idx ord sSeq))
    with hfdef
  intro os
  induction os with
  | nil => intro acc _; rfl
  | cons o os ih =>
    intro acc hos
    have ho : o ≤ 7 := hos o (by simp)
    have hmul : k * BITS_PER_BYTE < USIZE := by omega
    have hadd : k * BITS_PER_BYTE + o < USIZE := by omega
    have e1 : checkedMul k BITS_PER_BYTE = some (k * BITS_PER_BYTE) := by
      rw [checkedMul, if_pos hmul]
    have e2 : checkedAdd (k * BITS_PER_BYTE) o = some (k * BITS_PER_BYTE + o) := by
      rw [checkedAdd, if_pos hadd]
    have hfa : f acc o
        = Except.ok (acc * 2 % 256 ||| readBitAt img l (idx ord (k * BITS_PER_BYTE + o))) := by
      rw [hfdef]
      simp only [e1, e2]
    rw [List.foldl_cons]
    calc List.foldlM f acc (o :: os)
        = f acc o >>= fun a => List.foldlM f a os := by rw [List.foldlM_cons]
      _ = List.foldlM f (acc * 2 % 256 ||| readBitAt img l (idx ord (k * BITS_PER_BYTE + o)))
            os := by
              rw [hfa]
              rfl
      _ = Except.ok (List.foldl
            (fun acc o => acc * 2 % 256 ||| readBitAt img l (idx ord (k * BITS_PER_BYTE + o)))
            (acc * 2 % 256 ||| readBitAt img l (idx ord (k * BITS_PER_BYTE + o))) os) :=
          ih _ (fun o2 ho2 => hos o2 (by simp [ho2]))

theorem readByteAt_ok (img : RgbImage) (l : Nat) (ord : List Nat) (k : Nat)
    (h : k * BITS_PER_BYTE + 7 < USIZE) :
    readByteAt img l ord k = .ok (readByteVal img l ord k) := by
  rw [readByteAt, readByteVal]
  apply readFoldAux img l ord k h (List.range BITS_PER_BYTE) 0
  intro o ho
  have := List.mem_range.mp ho
  rw [BITS_PER_BYTE] at this
  omega

theorem readBytesGo_ok (img : RgbImage) (l : Nat) (ord : List Nat) :
    ∀ (ks : List Nat), (∀ k ∈ ks, k * BITS_PER_BYTE + 7 < USIZE) →
      readBytesGo img l ord ks = .ok (ks.map (readByteVal img l ord)) := by
  intro ks
  induction ks with
  | nil => intro _; rfl
  | cons k ks ih =>
    intro h
    rw [readBytesGo]
    rw [readByteAt_ok img l ord k (h k (by simp))]
    rw [ih (fun k2 hk2 => h k2 (by simp [hk2]))]
    rfl

theorem read_bytes_ok (img : RgbImage) (n l seed : Nat)
    (h1 : img.width * 3 < USIZE) (h2 : img.width * 3 * l < USIZE)
    (h3 : img.width * 3 * l * img.height < USIZE) (h4 : n * 8 < USIZE)
    (h5 : n * 8 ≤ img.width * 3 * l * img.height) :
    read_bytes img n l seed
      = .ok ((List.range n).map
          (readByteVal img l (generate_order seed (img.width * 3 * l * img.height)))) := by
  have e1 : checkedMul img.width EMBEDDABLE_CHANNELS = some (img.width * 3) := by
    rw [checkedMul, EMBEDDABLE_CHANNELS, if_pos h1]
  have e2 : checkedMul (img.width * 3) l = some (img.width * 3 * l) := by
    rw [checkedMul, if_pos h2]
  have e3 : checkedMul (img.width * 3 * l) img.height
      = some (img.width * 3 * l * img.height) := by
    rw [checkedMul, if_pos h3]
  have e4 : checkedMul n BITS_PER_BYTE = some (n * 8) := by
    rw [checkedMul, BITS_PER_BYTE, if_pos h4]
  have hcap : ¬ (img.width * 3 * l * img.height < n * 8) := by omega
  rw [read_bytes]
  simp only [e1, e2, e3, e4, if_neg hcap]
  apply readBytesGo_ok
  intro k hk
  have hkn : k < n := List.mem_range.mp hk
  rw [BITS_PER_BYTE]
  omega

theorem embed_bytes_width (image : RgbImage) (total : List Nat) (l seed : Nat) :
    (embed_bytes image total l seed).width = image.width := rfl

theorem embed_bytes_height (image : RgbImage) (total : List Nat) (l seed : Nat) :
    (embed_bytes image total l seed).height = image.height := rfl

theorem if_decide_eq_one {v : Nat} (hv : v ≤ 1) :
    (if decide (v = 1) = true then 1 else 0) = v := by
  interval_cases v <;> simp

/-- Reading back one byte from the embedded surface recovers the
corresponding framed payload byte. -/
theorem readByteVal_embed (image : RgbImage) (total : List Nat) (l seed : Nat)
    (hl1 : 1 ≤ l) (hl8 : l ≤ 8)
    (hcap : total.length * BITS_PER_BYTE ≤ imageLen image * l)
    (hnw : imageLen image * l < USIZE)
    (hbytes : ∀ b ∈ total, b < 256)
    (k : Nat) (hk : k < total.length) :
    readByteVal (embed_bytes image total l seed) l
      (generate_order seed (image.width * 3 * l * image.height)) k
      = total.getD k 0 := by
  have hl0 : 0 < l := by omega
  have hNeq : image.width * 3 * l * image.height = imageLen image * l := by
    rw [imageLen]
    ring
  rw [embed_bytes_eq_reference image total l seed hl1 hl8 hcap hnw]
  rw [readByteVal]
  set N := image.width * 3 * l * image.height with hN
  set ord := generate_order seed N with hord
  have hlen : ord.length = N := generate_order_length seed N
  have hval : ∀ i, i < ord.length → idx ord i < image.width * 3 * l * image.height := by
    intro i hi
    rw [hlen] at hi
    exact idx_lt seed N i hi
  have hinj : ∀ i j, i < ord.length → j < ord.length → idx ord i = idx ord j → i = j := by
    intro i j hi hj
    rw [hlen] at hi hj
    exact idx_injOn seed N hi hj
  have htbN : total.length * BITS_PER_BYTE ≤ ord.length := by
    rw [hlen]
    calc total.length * BITS_PER_BYTE ≤ imageLen image * l := hcap
      _ = image.width * 3 * l * image.height := by rw [imageLen]; ring
  obtain ⟨IA, _, _, _⟩ := refFold_spec image.width image.height l ord total image.data
    hl0 hl8 hval hinj (total.length * BITS_PER_BYTE) htbN
  have hrefdata : (referenceEmbedBytes image total l seed).data
      = List.foldl (refWriteStep image.width l ord total) image.data
        (List.range (total.length * BITS_PER_BYTE)) := by
    rw [referenceEmbedBytes]
    have : image.width * EMBEDDABLE_CHANNELS * l * image.height = N := by
      rw [EMBEDDABLE_CHANNELS, hN]
    rw [this]
  have hstep : ∀ (acc o : Nat), o < 8 →
      acc * 2 % 256 ||| readBitAt (referenceEmbedBytes image total l seed) l
        (idx ord (k * BITS_PER_BYTE + o))
      = acc * 2 % 256 ||| ((total.getD k 0 >>> (7 - o)) &&& 1) := by
    intro acc o ho
    have hio : k * BITS_PER_BYTE + o < total.length * BITS_PER_BYTE := by
      rw [BITS_PER_BYTE] at *
      omega
    have hsN : idx ord (k * BITS_PER_BYTE + o) < N := by
      apply idx_lt
      omega
    have hsN2 : idx ord (k * BITS_PER_BYTE + o) < image.width * 3 * l * image.height := by
      rw [← hN]
      exact hsN
    have hsd := slot_decomp hl0 hsN2
    rw [readBitAt_testBit]
    have hw : (referenceEmbedBytes image total l seed).width = image.width := rfl
    rw [hw, hsd.1, hsd.2, hrefdata]
    have hA := IA (k * BITS_PER_BYTE + o) hio
    rw [hA]
    have hbit : bitOf total (k * BITS_PER_BYTE + o)
        = (total.getD k 0 >>> (7 - o)) &&& 1 := by
      rw [bitOf]
      have hdiv : (k * BITS_PER_BYTE + o) / BITS_PER_BYTE = k := by
        rw [BITS_PER_BYTE]
        omega
      have hmod : (k * BITS_PER_BYTE + o) % BITS_PER_BYTE = o := by
        rw [BITS_PER_BYTE]
        omega
      rw [hdiv, hmod, BITS_PER_BYTE]
    rw [if_decide_eq_one (bitOf_le_one total _), hbit]
  have hfold : List.foldl (fun acc o => acc * 2 % 256
        ||| readBitAt (referenceEmbedBytes image total l seed) l
          (idx ord (k * BITS_PER_BYTE + o))) 0 (List.range BITS_PER_BYTE)
      = List.foldl (fun acc o => acc * 2 % 256 ||| ((total.getD k 0 >>> (7 - o)) &&& 1)) 0
          (List.range BITS_PER_BYTE) := by
    apply List.foldl_ext
    intro acc o ho
    have ho8 : o < 8 := by
      have := List.mem_range.mp ho
      rw [BITS_PER_BYTE] at this
      exact this
    exact hstep acc o ho8
  rw [hfold, BITS_PER_BYTE]
  apply reconstruct_byte
  have hmem : total.getD k 0 ∈ total := by
    rw [List.getD_eq_getElem total 0 hk]
    exact List.getElem_mem hk
  exact hbytes _ hmem

/-- Reading the first `n` bytes back from the embedded surface returns the
first `n` framed payload bytes. -/
theorem read_embed_eq_take (image : RgbImage) (total : List Nat) (l seed : Nat)
    (hl1 : 1 ≤ l) (hl8 : l ≤ 8) (hW : image.width < 2 ^ 32)
    (hcap : total.length * BITS_PER_BYTE ≤ imageLen image * l)
    (hnw : imageLen image * l < USIZE)
    (hbytes : ∀ b ∈ total, b < 256)
    (n : Nat) (hn : n ≤ total.length) :
    read_bytes (embed_bytes image total l seed) n l seed = .ok (total.take n) := by
  have hl0 : 0 < l := by omega
  have hNeq : image.width * 3 * l * image.height = imageLen image * l := by
    rw [imageLen]
    ring
  have h1 : image.width * 3 < USIZE := by
    rw [USIZE]
    omega
  have h2 : image.width * 3 * l < USIZE := by
    rw [USIZE]
    have : image.width * 3 * l ≤ image.width * 3 * 8 := by
      apply Nat.mul_le_mul_left
      omega
    omega
  have h3 : image.width * 3 * l * image.height < USIZE := by
    rw [hNeq]
    exact hnw
  have h4 : n * 8 < USIZE := by
    have hc : n * 8 ≤ total.length * BITS_PER_BYTE := by
      rw [BITS_PER_BYTE]
      omega
    omega
  have h5 : n * 8 ≤ image.width * 3 * l * image.height := by
    have hc : n * 8 ≤ total.length * BITS_PER_BYTE := by
      rw [BITS_PER_BYTE]
      omega
    rw [hNeq]
    omega
  have hro := read_bytes_ok (embed_bytes image total l seed) n l seed h1 h2 h3 h4 h5
  simp only [embed_bytes_width, embed_bytes_height] at hro
  rw [hro]
  congr 1
  apply List.ext_getElem
  · simp only [List.length_map, List.length_range, List.length_take]
    omega
  · intro j hj1 hj2
    have hjn : j < n := by
      simp only [List.length_map, List.length_range] at hj1
      exact hj1
    have hjt : j < total.length := by omega
    rw [List.getElem_map, List.getElem_range, List.getElem_take]
    have := readByteVal_embed image total l seed hl1 hl8 hcap hnw hbytes j hjt
    rw [this]
    rw [List.getD_eq_getElem total 0 hjt]

/- Framer facts. -/

theorem hashBytes_length (h : Hash) (data : List Nat) :
    (hashBytes h data).length = outputSize h := by
  rw [hashBytes, List.length_map, List.length_range]

theorem hashBytes_lt (h : Hash) (data : List Nat) : ∀ b ∈ hashBytes h data, b < 256 := by
  intro b hb
  rw [hashBytes] at hb
  obtain ⟨i, _, hbe⟩ := List.mem_map.mp hb
  omega

theorem toRepr_lt (h : Hash) : h.toRepr < 256 := by
  cases h <;> simp [Hash.toRepr]

theorem fromRepr_toRepr (h : Hash) : Hash.fromRepr h.toRepr = some h := by
  cases h <;> rfl

theorem take_append_length {α : Type} (l₁ l₂ : List α) (n : Nat) (hn : n = l₁.length) :
    (l₁ ++ l₂).take n = l₁ := by
  rw [hn]
  exact List.take_left _ _

theorem drop_append_length {α : Type} (l₁ l₂ : List α) (n : Nat) (hn : n = l₁.length) :
    (l₁ ++ l₂).drop n = l₂ := by
  rw [hn]
  exact List.drop_left _ _

theorem build_payload_ok (input ext : List Nat) (h : Hash)
    (hext : ext.length ≤ 255)
    (hlen : 2 + ext.length + outputSize h + input.length < 2 ^ 32) :
    build_payload input ext h = .ok (framedPayload input ext h) := by
  have hplen : ((ext.length :: ext ++ h.toRepr :: hashBytes h input ++ input) : List Nat).length
      = 2 + ext.length + outputSize h + input.length := by
    simp only [List.length_cons, List.length_append, hashBytes_length]
    omega
  rw [build_payload, if_neg (by omega)]
  simp only [hplen]
  rw [if_neg (by omega)]
  rw [framedPayload]
  simp [List.append_assoc]

theorem build_payload_bytes_lt (input ext : List Nat) (h : Hash)
    (hext : ext.length ≤ 255)
    (hin : ∀ b ∈ input, b < 256) (hexb : ∀ b ∈ ext, b < 256) :
    ∀ b ∈ framedPayload input ext h, b < 256 := by
  intro b hb
  rw [framedPayload] at hb
  simp only [List.mem_append, List.mem_cons] at hb
  rcases hb with hb | hb | hb | hb | hb | hb
  · exact toLe4_lt _ b hb
  · omega
  · exact hexb b hb
  · have := toRepr_lt h
    omega
  · exact hashBytes_lt h input b hb
  · exact hin b hb

theorem framedPayload_length (input ext : List Nat) (h : Hash) :
    (framedPayload input ext h).length
      = 4 + (2 + ext.length + outputSize h + input.length) := by
  rw [framedPayload]
  simp only [List.length_append, List.length_cons, hashBytes_length, toLe4_length]
  omega

theorem imageLen_embed_bytes (image : RgbImage) (total : List Nat) (l seed : Nat) :
    imageLen (embed_bytes image total l seed) = imageLen image := rfl

/-- Extraction applied to the surface written by `embed_bytes` with a
well-formed framed payload recovers the data and the extension. -/
theorem extract_after_embed (image : RgbImage) (input ext : List Nat) (h : Hash)
    (l seed : Nat) (hl1 : 1 ≤ l) (hl8 : l ≤ 8) (hW : image.width < 2 ^ 32)
    (hext255 : ext.length ≤ 255) (hutf : validUtf8 ext = true)
    (hin : ∀ b ∈ input, b < 256) (hexb : ∀ b ∈ ext, b < 256)
    (hpl : 2 + ext.length + outputSize h + input.length < 2 ^ 32)
    (hcap : (4 + (2 + ext.length + outputSize h + input.length)) * BITS_PER_BYTE
      ≤ imageLen image * l)
    (hnw : imageLen image * l < USIZE)
    (total : List Nat) (htot : build_payload input ext h = .ok total) :
    extract (embed_bytes image total l seed) l seed = .ok (input, ext) := by
  have htote : total = framedPayload input ext h := by
    have h2 := build_payload_ok input ext h hext255 hpl
    rw [htot] at h2
    exact Except.ok.inj h2
  set PL := 2 + ext.length + outputSize h + input.length with hPL
  have htl : total.length = 4 + PL := by
    rw [htote]
    exact framedPayload_length input ext h
  have hbytes : ∀ b ∈ total, b < 256 := by
    rw [htote]
    exact build_payload_bytes_lt input ext h hext255 hin hexb
  have hcap2 : total.length * BITS_PER_BYTE ≤ imageLen image * l := by
    rw [htl]
    exact hcap
  have hLeImg : 4 + PL ≤ imageLen image := by
    have hml : imageLen image * l ≤ imageLen image * 8 := Nat.mul_le_mul_left _ hl8
    have h8 : (4 + PL) * 8 ≤ imageLen image * 8 := by
      rw [BITS_PER_BYTE] at hcap
      omega
    exact Nat.le_of_mul_le_mul_right h8 (by omega)
  have hread4 : read_bytes (embed_bytes image total l seed) 4 l seed = .ok (toLe4 PL) := by
    have hr := read_embed_eq_take image total l seed hl1 hl8 hW hcap2 hnw hbytes 4
      (by omega)
    rw [hr]
    have ht4 : total.take 4 = toLe4 PL := by
      rw [htote, framedPayload]
      exact take_append_length _ _ _ (toLe4_length _).symm
    rw [ht4]
  have hreadfull : read_bytes (embed_bytes image total l seed) (PL + 4) l seed
      = .ok total := by
    have hr := read_embed_eq_take image total l seed hl1 hl8 hW hcap2 hnw hbytes (PL + 4)
      (by omega)
    rw [hr]
    have htf : total.take (PL + 4) = total := List.take_of_length_le (by omega)
    rw [htf]
  have hPL32 : PL < 2 ^ 32 := hpl
  have hlen_eq : extract_length (embed_bytes image total l seed) l seed = .ok PL := by
    rw [extract_length]
    simp only [imageLen_embed_bytes]
    rw [if_neg (by omega)]
    simp only [hread4]
    rw [fromLe4_toLe4 PL hPL32]
    rw [if_neg (by omega)]
  have hdrop : total.drop 4
      = ext.length :: (ext ++ (h.toRepr :: (hashBytes h input ++ input))) := by
    rw [htote, framedPayload]
    exact drop_append_length _ _ _ (toLe4_length _).symm
  have hpay : extract_payload (embed_bytes image total l seed) PL l seed
      = .ok (input, ext) := by
    rw [extract_payload]
    simp only [hreadfull, hdrop]
    have hrestlen : ((ext ++ (h.toRepr :: (hashBytes h input ++ input))) : List Nat).length
        = ext.length + 1 + outputSize h + input.length := by
      simp only [List.length_append, List.length_cons, hashBytes_length]
      omega
    rw [if_neg (by omega)]
    have htake1 : (ext ++ (h.toRepr :: (hashBytes h input ++ input))).take ext.length
        = ext := List.take_left _ _
    have hdrop1 : (ext ++ (h.toRepr :: (hashBytes h input ++ input))).drop ext.length
        = h.toRepr :: (hashBytes h input ++ input) := List.drop_left _ _
    rw [htake1, if_pos hutf]
    simp only [hdrop1, fromRepr_toRepr]
    have hp4len : (hashBytes h input ++ input).length = outputSize h + input.length := by
      simp only [List.length_append, hashBytes_length]
    rw [if_neg (by omega)]
    have htake2 : (hashBytes h input ++ input).take (outputSize h) = hashBytes h input :=
      take_append_length _ _ _ (hashBytes_length h input).symm
    have hdrop2 : (hashBytes h input ++ input).drop (outputSize h) = input :=
      drop_append_length _ _ _ (hashBytes_length h input).symm
    rw [htake2, hdrop2, if_pos rfl]
  rw [extract]
  simp only [hlen_eq]
  exact hpay

theorem fromLe4_toLe4_mod (n : Nat) : fromLe4 (toLe4 n) = n % 2 ^ 32 := by
  simp only [toLe4, fromLe4, List.getD, List.get?, Option.getD_some]
  omega

theorem framedPayload_take4 (input ext : List Nat) (h : Hash) :
    (framedPayload input ext h).take 4
      = toLe4 (2 + ext.length + outputSize h + input.length) := by
  rw [framedPayload]
  exact take_append_length _ _ _ (toLe4_length _).symm

theorem bitOf_msb (total : List Nat) (i : Nat) :
    bitOf total i = (total.getD (i / 8) 0 >>> (7 - i % 8)) &&& 1 := rfl

/-- Bit-level characterization of the chunk-partitioned write: the channel
bit at slot `order[i]` holds source bit `i`; channel bits whose slot was
not among the first `total_bits` destinations, channel bits at positions
`lsbs` and above, and untouched bytes are all preserved. -/
theorem embed_bytes_data_spec (image : RgbImage) (total : List Nat) (l seed : Nat)
    (hl1 : 1 ≤ l) (hl8 : l ≤ 8)
    (hcap : total.length * BITS_PER_BYTE ≤ imageLen image * l)
    (hnw : imageLen image * l < USIZE) :
    (∀ i, i < total.length * BITS_PER_BYTE →
      readBitAt (embed_bytes image total l seed) l
        (idx (generate_order seed (imageLen image * l)) i) = bitOf total i)
    ∧ (∀ b k, k < 8 →
        (∀ i, i < total.length * BITS_PER_BYTE →
          idx (generate_order seed (imageLen image * l)) i ≠ b * l + k) →
        ((embed_bytes image total l seed).data b).testBit k = (image.data b).testBit k)
    ∧ (∀ b k, l ≤ k → k < 8 →
        ((embed_bytes image total l seed).data b).testBit k = (image.data b).testBit k)
    ∧ (∀ b, (embed_bytes image total l seed).data b = image.data b
        ∨ (embed_bytes image total l seed).data b < 256) := by
  have hl0 : 0 < l := hl1
  have hNe3 : image.width * 3 * l * image.height = imageLen image * l := by
    rw [imageLen]
    ring
  rw [embed_bytes_eq_reference image total l seed hl1 hl8 hcap hnw]
  set N := imageLen image * l with hN
  set ord := generate_order seed N with hord
  have hlen : ord.length = N := generate_order_length seed N
  have hval : ∀ i, i < ord.length → idx ord i < image.width * 3 * l * image.height := by
    intro i hi
    rw [hlen] at hi
    rw [hNe3]
    exact idx_lt seed N i hi
  have hinj : ∀ i j, i < ord.length → j < ord.length → idx ord i = idx ord j → i = j := by
    intro i j hi hj
    rw [hlen] at hi hj
    exact idx_injOn seed N hi hj
  have htbN : total.length * BITS_PER_BYTE ≤ ord.length := by
    rw [hlen]
    exact hcap
  obtain ⟨IA, IB, IC, ID⟩ := refFold_spec image.width image.height l ord total image.data
    hl0 hl8 hval hinj (total.length * BITS_PER_BYTE) htbN
  have hdata : (referenceEmbedBytes image total l seed).data
      = List.foldl (refWriteStep image.width l ord total) image.data
        (List.range (total.length * BITS_PER_BYTE)) := by
    rw [referenceEmbedBytes]
    have he : image.width * EMBEDDABLE_CHANNELS * l * image.height = N := by
      rw [EMBEDDABLE_CHANNELS]
      exact hNe3
    rw [he]
  refine ⟨?_, ?_, ?_, ?_⟩
  · intro i hi
    have hsN : idx ord i < N := idx_lt seed N i (Nat.lt_of_lt_of_le hi hcap)
    have hsN2 : idx ord i < image.width * 3 * l * image.height := by
      rw [hNe3]
      exact hsN
    have hsd := slot_decomp hl0 hsN2
    rw [readBitAt_testBit]
    have hw : (referenceEmbedBytes image total l seed).width = image.width := rfl
    rw [hw, hsd.1, hsd.2, hdata, IA i hi]
    exact if_decide_eq_one (bitOf_le_one total i)
  · intro b k hk8 hnot
    rw [hdata]
    exact IB b k hk8 hnot
  · intro b k hlk hk8
    rw [hdata]
    exact ID b k hlk hk8
  · intro b
    rw [hdata]
    exact IC b

/-- Evaluation of the embed driver past its validation steps: with a valid
`lsbs`, a lossless format, a well-formed frame, and no overflow, `embed`
either rejects for capacity or returns the written surface. -/
theorem embed_eval (input ext : List Nat) (image : RgbImage) (l : Nat) (h : Hash)
    (seed : Nat) (fmt : ImageFormat)
    (hl1 : 1 ≤ l) (hl8 : l ≤ 8)
    (hfmt : LOSSLESS_FORMATS.contains fmt = true)
    (hext255 : ext.length ≤ 255)
    (hpl : 2 + ext.length + outputSize h + input.length < 2 ^ 32)
    (htb : (4 + (2 + ext.length + outputSize h + input.length)) * BITS_PER_BYTE < USIZE)
    (hnw : imageLen image * l < USIZE) :
    embed input ext image l h seed fmt
      = (if imageLen image * l
            < (4 + (2 + ext.length + outputSize h + input.length)) * BITS_PER_BYTE
        then .error .insufficientCapacity
        else .ok (embed_bytes image (framedPayload input ext h) l seed)) := by
  rw [embed]
  rw [if_neg (by rw [BITS_PER_BYTE]; omega)]
  rw [if_neg (by rw [hfmt]; simp)]
  simp only [build_payload_ok input ext h hext255 hpl]
  have e4 : checkedMul (framedPayload input ext h).length BITS_PER_BYTE
      = some ((4 + (2 + ext.length + outputSize h + input.length)) * BITS_PER_BYTE) := by
    rw [checkedMul, framedPayload_length, if_pos htb]
  simp only [e4]
  rw [Nat.mod_eq_of_lt hnw]

theorem zeroImage_width (w hgt : Nat) : (zeroImage w hgt).width = w := rfl

theorem readByteVal_zero (w hgt l : Nat) (ord : List Nat) (k : Nat) :
    readByteVal (zeroImage w hgt) l ord k = 0 := by
  rw [readByteVal]
  generalize List.range BITS_PER_BYTE = os
  induction os with
  | nil => rfl
  | cons o os ih =>
    rw [List.foldl_cons]
    have h0 : readBitAt (zeroImage w hgt) l (idx ord (k * BITS_PER_BYTE + o)) = 0 := by
      rw [readBitAt]
      show ((0 : Nat) >>> _) &&& 1 = 0
      rw [Nat.zero_shiftRight]
      rfl
    rw [h0]
    simpa using ih

theorem read_zero (w hgt n l seed : Nat)
    (h1 : w * 3 < USIZE) (h2 : w * 3 * l < USIZE) (h3 : w * 3 * l * hgt < USIZE)
    (h4 : n * 8 < USIZE) (h5 : n * 8 ≤ w * 3 * l * hgt) :
    read_bytes (zeroImage w hgt) n l seed = .ok (List.replicate n 0) := by
  have hro := read_bytes_ok (zeroImage w hgt) n l seed h1 h2 h3 h4 h5
  rw [hro]
  congr 1
  have hmap : ∀ k ∈ List.range n,
      readByteVal (zeroImage w hgt) l
        (generate_order seed
          ((zeroImage w hgt).width * 3 * l * (zeroImage w hgt).height)) k = 0 := by
    intro k _
    exact readByteVal_zero w hgt l _ k
  calc (List.range n).map (readByteVal (zeroImage w hgt) l
        (generate_order seed ((zeroImage w hgt).width * 3 * l * (zeroImage w hgt).height)))
      = (List.range n).map (fun _ => 0) := List.map_congr_left hmap
    _ = List.replicate n 0 := by
        rw [List.map_const']
        simp

/- Which error variants each stage can produce. -/

theorem foldlM_error (f : Nat → Nat → Except StegError Nat)
    (hf : ∀ acc o, f acc o = .error .calculationOverflow ∨ ∃ v, f acc o = .ok v) :
    ∀ (os : List Nat) (acc : Nat) e,
      List.foldlM f acc os = .error e → e = .calculationOverflow := by
  intro os
  induction os with
  | nil =>
    intro acc e hcon
    rw [List.foldlM_nil] at hcon
    exact absurd hcon (by simp [pure, Except.pure])
  | cons o os ih =>
    intro acc e hcon
    rw [List.foldlM_cons] at hcon
    rcases hf acc o with hfe | ⟨v, hfv⟩
    · rw [hfe] at hcon
      exact (Except.error.inj hcon).symm
    · rw [hfv] at hcon
      exact ih _ e hcon

theorem readByteAt_error (img : RgbImage) (l : Nat) (ord : List Nat) (k : Nat) :
    ∀ e, readByteAt img l ord k = .error e → e = .calculationOverflow := by
  intro e hcon
  rw [readByteAt] at hcon
  refine foldlM_error _ ?_ _ 0 e hcon
  intro acc o
  cases hm : checkedMul k BITS_PER_BYTE with
  | none =>
    left
    simp [hm]
  | some kb =>
    cases ha : checkedAdd kb o with
    | none =>
      left
      simp [hm, ha]
    | some s2 =>
      right
      exact ⟨acc * 2 % 256 ||| readBitAt img l (idx ord s2), by simp [hm, ha]⟩

theorem readBytesGo_error (img : RgbImage) (l : Nat) (ord : List Nat) :
    ∀ (ks : List Nat) e, readBytesGo img l ord ks = .error e
      → e = .calculationOverflow := by
  intro ks
  induction ks with
  | nil =>
    intro e hcon
    exact absurd hcon (by rw [readBytesGo]; simp)
  | cons k ks ih =>
    intro e hcon
    rw [readBytesGo] at hcon
    cases hr : readByteAt img l ord k with
    | error e2 =>
      rw [hr] at hcon
      have := readByteAt_error img l ord k e2 hr
      subst this
      exact (Except.error.inj hcon).symm
    | ok b =>
      rw [hr] at hcon
      cases hg : readBytesGo img l ord ks with
      | error e2 =>
        rw [hg] at hcon
        have := ih e2 hg
        subst this
        exact (Except.error.inj hcon).symm
      | ok bs =>
        rw [hg] at hcon
        exact absurd hcon (by simp)

theorem read_bytes_error (img : RgbImage) (n l seed : Nat) :
    ∀ e, read_bytes img n l seed = .error e
      → e = .calculationOverflow ∨ e = .insufficientCapacity := by
  intro e hcon
  rw [read_bytes] at hcon
  cases h1 : checkedMul img.width EMBEDDABLE_CHANNELS with
  | none =>
    simp only [h1] at hcon
    left
    exact (Except.error.inj hcon).symm
  | some w3 =>
    simp only [h1] at hcon
    cases h2 : checkedMul w3 l with
    | none =>
      simp only [h2] at hcon
      left
      exact (Except.error.inj hcon).symm
    | some wb =>
      simp only [h2] at hcon
      cases h3 : checkedMul wb img.height with
      | none =>
        simp only [h3] at hcon
        left
        exact (Except.error.inj hcon).symm
      | some cap =>
        simp only [h3] at hcon
        cases h4 : checkedMul n BITS_PER_BYTE with
        | none =>
          simp only [h4] at hcon
          left
          exact (Except.error.inj hcon).symm
        | some lb =>
          simp only [h4] at hcon
          by_cases h5 : cap < lb
          · rw [if_pos h5] at hcon
            right
            exact (Except.error.inj hcon).symm
          · rw [if_neg h5] at hcon
            left
            exact readBytesGo_error img l _ _ e hcon

theorem extract_length_error (img : RgbImage) (l seed : Nat) :
    ∀ e, extract_length img l seed = .error e
      → e = .calculationOverflow ∨ e = .insufficientCapacity := by
  intro e hcon
  rw [extract_length] at hcon
  by_cases h0 : imageLen img < 4
  · rw [if_pos h0] at hcon
    right
    exact (Except.error.inj hcon).symm
  · rw [if_neg h0] at hcon
    cases hr : read_bytes img 4 l seed with
    | error e2 =>
      simp only [hr] at hcon
      have h2 := read_bytes_error img 4 l seed e2 hr
      have he : e2 = e := Except.error.inj hcon
      rw [← he]
      exact h2
    | ok bs =>
      simp only [hr] at hcon
      by_cases h5 : imageLen img < fromLe4 bs + 4
      · rw [if_pos h5] at hcon
        right
        exact (Except.error.inj hcon).symm
      · rw [if_neg h5] at hcon
        exact absurd hcon (by simp)

theorem extract_payload_err (img : RgbImage) (length l seed : Nat) (e : StegError)
    (hr : read_bytes img (length + 4) l seed = .error e) :
    extract_payload img length l seed = .err e := by
  rw [extract_payload, hr]

theorem extract_payload_eq (img : RgbImage) (length l seed : Nat) (bs : List Nat)
    (hr : read_bytes img (length + 4) l seed = .ok bs) :
    extract_payload img length l seed
      = (match bs.drop 4 with
        | [] => .panicked
        | extLen :: p2 =>
          if p2.length < extLen then .panicked
          else if validUtf8 (p2.take extLen) then
            match p2.drop extLen with
            | [] => .panicked
            | tag :: p4 =>
              match Hash.fromRepr tag with
              | none => .err .hashFlagParse
              | some h =>
                if p4.length < outputSize h then .panicked
                else if hashBytes h (p4.drop (outputSize h)) = p4.take (outputSize h)
                  then .ok (p4.drop (outputSize h), p2.take extLen)
                  else .err .checksumMismatch
          else .err .payloadParse) := by
  rw [extract_payload, hr]

theorem extract_payload_no_invalid (img : RgbImage) (length l seed : Nat) :
    extract_payload img length l seed ≠ .err .invalidLsbValue := by
  cases hr : read_bytes img (length + 4) l seed with
  | error e =>
    rw [extract_payload_err img length l seed e hr]
    have h2 := read_bytes_error img (length + 4) l seed e hr
    intro hcon
    have he : e = .invalidLsbValue := Outcome.err.inj hcon
    rw [he] at h2
    rcases h2 with h2 | h2 <;> exact absurd h2 (by simp)
  | ok bs =>
    rw [extract_payload_eq img length l seed bs hr]
    cases hd : bs.drop 4 with
    | nil => simp
    | cons a p2 =>
      by_cases hlt : p2.length < a
      · simp [hlt]
      · by_cases hvu : validUtf8 (p2.take a) = true
        · cases hp3 : p2.drop a with
          | nil => simp [hlt, hvu, hp3]
          | cons tag p4 =>
            cases hfr : Hash.fromRepr tag with
            | none => simp [hlt, hvu, hp3, hfr]
            | some hh =>
              by_cases hsz : p4.length < outputSize hh
              · simp [hlt, hvu, hp3, hfr, hsz]
              · by_cases hck : hashBytes hh (p4.drop (outputSize hh))
                    = p4.take (outputSize hh)
                · simp [hlt, hvu, hp3, hfr, hsz, hck]
                · simp [hlt, hvu, hp3, hfr, hsz, hck]
        · simp [hlt, hvu]

theorem extract_no_invalid (img : RgbImage) (l seed : Nat) :
    extract img l seed ≠ .err .invalidLsbValue := by
  rw [extract]
  cases he : extract_length img l seed with
  | error e =>
    have h2 := extract_length_error img l seed e he
    intro hcon
    have h3 : e = .invalidLsbValue := Outcome.err.inj hcon
    rw [h3] at h2
    rcases h2 with h2 | h2 <;> exact absurd h2 (by simp)
  | ok length => exact extract_payload_no_invalid img length l seed

/-- Behaviour of `extract_payload` on a successfully-read framed region
whose declared extension and tag fields lie within bounds: invalid UTF-8
maps to `PayloadParse`, an unknown tag to `HashFlagParse`, a checksum
mismatch to `ChecksumMismatch`, and a match returns data and extension. -/
theorem extract_payload_parse (img : RgbImage) (length l seed : Nat) (bs : List Nat)
    (hread : read_bytes img (length + 4) l seed = .ok bs)
    (hlen : bs.length = length + 4)
    (hadq : 2 + bs.getD 4 0 ≤ length) :
    (validUtf8 ((bs.drop 5).take (bs.getD 4 0)) = false →
      extract_payload img length l seed = .err .payloadParse)
    ∧ (validUtf8 ((bs.drop 5).take (bs.getD 4 0)) = true →
      Hash.fromRepr (bs.getD (5 + bs.getD 4 0) 0) = none →
      extract_payload img length l seed = .err .hashFlagParse)
    ∧ (∀ hh : Hash, validUtf8 ((bs.drop 5).take (bs.getD 4 0)) = true →
      Hash.fromRepr (bs.getD (5 + bs.getD 4 0) 0) = some hh →
      outputSize hh ≤ length - 2 - bs.getD 4 0 →
      ((hashBytes hh ((bs.drop (6 + bs.getD 4 0)).drop (outputSize hh))
          ≠ (bs.drop (6 + bs.getD 4 0)).take (outputSize hh) →
        extract_payload img length l seed = .err .checksumMismatch)
      ∧ (hashBytes hh ((bs.drop (6 + bs.getD 4 0)).drop (outputSize hh))
          = (bs.drop (6 + bs.getD 4 0)).take (outputSize hh) →
        extract_payload img length l seed
          = .ok ((bs.drop (6 + bs.getD 4 0)).drop (outputSize hh),
              (bs.drop 5).take (bs.getD 4 0))))) := by
  have hred := extract_payload_eq img length l seed bs hread
  have h4lt : 4 < bs.length := by omega
  have hgd : bs.getD 4 0 = bs[4] := List.getD_eq_getElem bs 0 h4lt
  have hd4 : bs.drop 4 = bs.getD 4 0 :: bs.drop 5 := by
    rw [hgd]
    exact List.drop_eq_getElem_cons h4lt
  simp only [hd4] at hred
  have hlp2 : (bs.drop 5).length = length - 1 := by
    rw [List.length_drop]
    omega
  rw [if_neg (by rw [hlp2]; omega)] at hred
  have h5e : 5 + bs.getD 4 0 < bs.length := by omega
  have hd5e : (bs.drop 5).drop (bs.getD 4 0)
      = bs.getD (5 + bs.getD 4 0) 0 :: bs.drop (6 + bs.getD 4 0) := by
    rw [List.drop_drop]
    rw [List.drop_eq_getElem_cons h5e]
    congr 1
    · exact (List.getD_eq_getElem bs 0 h5e).symm
    · congr 1
      omega
  have hlp4 : (bs.drop (6 + bs.getD 4 0)).length = length - 2 - bs.getD 4 0 := by
    rw [List.length_drop]
    omega
  refine ⟨?_, ?_, ?_⟩
  · intro hvu
    rw [hred, if_neg (by rw [hvu]; simp)]
  · intro hvu hfr
    rw [hred, if_pos hvu]
    rw [hd5e]
    simp only [hfr]
  · intro hh hvu hfr hsz
    rw [hred, if_pos hvu] at *
    rw [hd5e]
    simp only [hfr]
    rw [if_neg (by rw [hlp4]; omega)]
    constructor
    · intro hne
      rw [if_neg hne]
    · intro heq
      rw [if_pos heq]

/-- Claim C1: for every payload, extension, `lsbs` in `[1, 8]`, seed, hash
tag, lossless output format, and container surface whose `capacity_bits`
is at least the framed payload's `total_bits`, extraction applied to the
output of embedding with the same `lsbs` and seed returns exactly the
original data and extension. -/
theorem c1_round_trip (input ext : List Nat) (image : RgbImage) (l : Nat)
    (h : Hash) (seed : Nat) (fmt : ImageFormat)
    (hl1 : 1 ≤ l) (hl8 : l ≤ 8)
    (hfmt : LOSSLESS_FORMATS.contains fmt = true)
    (hW : image.width < 2 ^ 32)
    (hext255 : ext.length ≤ 255) (hutf : validUtf8 ext = true)
    (hin : ∀ b ∈ input, b < 256) (hexb : ∀ b ∈ ext, b < 256)
    (hpl : 2 + ext.length + outputSize h + input.length < 2 ^ 32)
    (hcap : (4 + (2 + ext.length + outputSize h + input.length)) * BITS_PER_BYTE
      ≤ imageLen image * l)
    (hnw : imageLen image * l < USIZE) :
    ∃ out, embed input ext image l h seed fmt = .ok out
      ∧ extract out l seed = .ok (input, ext) := by
  have htb : (4 + (2 + ext.length + outputSize h + input.length)) * BITS_PER_BYTE
      < USIZE := by omega
  refine ⟨embed_bytes image (framedPayload input ext h) l seed, ?_, ?_⟩
  · have hev := embed_eval input ext image l h seed fmt hl1 hl8 hfmt hext255 hpl htb hnw
    rw [hev, if_neg (by omega)]
  · have hcap2 : (framedPayload input ext h).length * BITS_PER_BYTE ≤ imageLen image * l := by
      rw [framedPayload_length]
      exact hcap
    exact extract_after_embed image input ext h l seed hl1 hl8 hW hext255 hutf hin hexb
      hpl hcap hnw _ (build_payload_ok input ext h hext255 hpl)

theorem c1_round_trip_witness :
    ∃ out, embed [0] [] (zeroImage 13 1) 8 .blake3 42 .png = .ok out
      ∧ extract out 8 42 = .ok ([0], []) :=
  c1_round_trip [0] [] (zeroImage 13 1) 8 .blake3 42 .png (by decide) (by decide)
    (by decide) (by decide) (by decide) (by decide) (by decide) (by decide) (by decide)
    (by decide) (by decide)

/-- Claim C2 (code bug): the specification requires every derived
multiplicative geometry quantity to be overflow-checked in both embed and
extract, with overflow reported as `CalculationOverflow` and never a
silent wrap.  `read_bytes` in `extract.rs` checks `width_bits`,
`capacity_bits`, and `length_bits`, but `embed` in `embed.rs` line 83
computes `capacity_bits = image.len() * lsbs` as an unchecked `usize`
product: on a `2^31 x 2^31` surface with `lsbs = 8` the product
`3 * 2^65` wraps to `0 (mod 2^64)` and embed silently reports
`InsufficientCapacity` instead of `CalculationOverflow`. -/
theorem c2_embed_capacity_unchecked :
    embed [0] [] hugeImage 8 .blake3 42 .png = .error .insufficientCapacity
    ∧ imageLen hugeImage * 8 % USIZE = 0
    ∧ 2 ^ 64 ≤ imageLen hugeImage * 8 := by
  refine ⟨rfl, by decide, by decide⟩

/-- Claim C3 (code bug): on a decodable image whose recovered payload
length passes the byte-capacity check but whose framed region is
truncated, `extract` does not return `PayloadParse`: the unchecked Rust
slice indexing panics.  The all-zero 2x1 surface at `lsbs = 8` decodes
`payload_len = 0`, the capacity check `0 + 4 <= 6` passes, the framed
region after the prefix is empty, and reading `ext_len` indexes out of
bounds. -/
theorem c3_truncated_framing_panics : extract (zeroImage 2 1) 8 42 = .panicked := by
  decide

/-- Claim C4: the framed payload built by `build_payload` is exactly the
4-byte little-endian `payload_len` followed by `ext_len`, the extension,
the hash tag, the checksum `H(data)`, and the data; `payload_len` counts
every byte after the 4-byte prefix; `ExtensionTooLong` is returned exactly
when the extension exceeds 255 bytes and `CalculationOverflow` exactly
when `payload_len` exceeds `2^32 - 1`. -/
theorem c4_build_payload_layout (input ext : List Nat) (h : Hash) :
    build_payload input ext h
      = (if 255 < ext.length then .error .extensionTooLong
        else if 2 ^ 32 ≤ 2 + ext.length + outputSize h + input.length then
          .error .calculationOverflow
        else .ok (framedPayload input ext h))
    ∧ fromLe4 ((framedPayload input ext h).take 4)
        = (2 + ext.length + outputSize h + input.length) % 2 ^ 32
    ∧ (framedPayload input ext h).length
        = 4 + (2 + ext.length + outputSize h + input.length) := by
  refine ⟨?_, ?_, framedPayload_length input ext h⟩
  · have hplen : ((ext.length :: ext ++ h.toRepr :: hashBytes h input ++ input)
        : List Nat).length = 2 + ext.length + outputSize h + input.length := by
      simp only [List.length_cons, List.length_append, hashBytes_length]
      omega
    by_cases h1 : 255 < ext.length
    · rw [if_pos h1, build_payload, if_pos h1]
    · rw [if_neg h1]
      by_cases h2 : 2 ^ 32 ≤ 2 + ext.length + outputSize h + input.length
      · rw [if_pos h2, build_payload, if_neg h1]
        simp only [hplen]
        rw [if_pos (by omega)]
      · rw [if_neg h2]
        exact build_payload_ok input ext h (by omega) (by omega)
  · rw [framedPayload_take4, fromLe4_toLe4_mod]

/-- Claim C5: for every slot index below `capacity_bits`, the accessor
lands on the surface channel byte `s / lsbs` at bit `s % lsbs` through the
row-major coordinate chain, the chunk recomposition
`chunk_index * CHUNK_SIZE + bit_in_chunk` reproduces the same byte, and
the chunk-partitioned write of `embed_bytes` equals the sequential
row-major reference write. -/
theorem c5_accessor_refinement (image : RgbImage) (total : List Nat) (l seed : Nat)
    (hl1 : 1 ≤ l) (hl8 : l ≤ 8)
    (hcap : total.length * BITS_PER_BYTE ≤ imageLen image * l)
    (hnw : imageLen image * l < USIZE) :
    embed_bytes image total l seed = referenceEmbedBytes image total l seed
    ∧ ∀ s, s < image.width * 3 * l * image.height →
        slotByteIdx image.width l s = s / l
        ∧ slotBitIdx image.width l s = s % l
        ∧ s / (CHUNK_SIZE * l) * CHUNK_SIZE + s / l % CHUNK_SIZE = s / l := by
  refine ⟨embed_bytes_eq_reference image total l seed hl1 hl8 hcap hnw, ?_⟩
  intro s hs
  exact ⟨(slot_decomp hl1 hs).1, (slot_decomp hl1 hs).2, chunk_recompose hl1⟩

theorem c5_accessor_refinement_witness :
    embed_bytes (zeroImage 13 1) (buildOk [0] [] .blake3) 8 42
      = referenceEmbedBytes (zeroImage 13 1) (buildOk [0] [] .blake3) 8 42 :=
  (c5_accessor_refinement (zeroImage 13 1) (buildOk [0] [] .blake3) 8 42
    (by decide) (by decide) (by decide) (by decide)).1

/-- Claim C6: bit order within a byte is MSB-first on both sides: the
channel bit written at slot `order[i]` is
`(framed[i / 8] >> (7 - i % 8)) & 1`, and extraction assembles each output
byte by the MSB-first shift fold over the bits at slots
`order[8 * k + o]`, `o = 0..7` (`readByteVal`). -/
theorem c6_msb_first (image : RgbImage) (total : List Nat) (l seed n : Nat)
    (hl1 : 1 ≤ l) (hl8 : l ≤ 8) (hW : image.width < 2 ^ 32)
    (hcap : total.length * BITS_PER_BYTE ≤ imageLen image * l)
    (hnw : imageLen image * l < USIZE)
    (hn : n * 8 ≤ imageLen image * l) :
    (∀ i, i < total.length * BITS_PER_BYTE →
      readBitAt (embed_bytes image total l seed) l
        (idx (generate_order seed (imageLen image * l)) i)
        = (total.getD (i / 8) 0 >>> (7 - i % 8)) &&& 1)
    ∧ read_bytes image n l seed
        = .ok ((List.range n).map
            (readByteVal image l
              (generate_order seed (image.width * 3 * l * image.height)))) := by
  have hNe3 : image.width * 3 * l * image.height = imageLen image * l := by
    rw [imageLen]
    ring
  constructor
  · intro i hi
    have hbit := (embed_bytes_data_spec image total l seed hl1 hl8 hcap hnw).1 i hi
    rw [hbit]
    exact bitOf_msb total i
  · apply read_bytes_ok
    · rw [USIZE]
      omega
    · have hx : image.width * 3 * l ≤ image.width * 3 * 8 := Nat.mul_le_mul_left _ hl8
      rw [USIZE]
      omega
    · rw [hNe3]
      exact hnw
    · omega
    · rw [hNe3]
      exact hn

theorem c6_msb_first_witness :
    read_bytes (zeroImage 13 1) 4 8 42
      = .ok ((List.range 4).map
          (readByteVal (zeroImage 13 1) 8
            (generate_order 42
              ((zeroImage 13 1).width * 3 * 8 * (zeroImage 13 1).height)))) :=
  (c6_msb_first (zeroImage 13 1) (buildOk [0] [] .blake3) 8 42 4 (by decide) (by decide)
    (by decide) (by decide) (by decide) (by decide)).2

/-- Claim C7: during payload parsing on a successfully-read framed region
with in-bounds declared fields, extension bytes that are not valid UTF-8
yield `PayloadParse`; an unknown hash tag byte yields `HashFlagParse`; a
byte-wise mismatch between the stored checksum and the recomputed hash of
the extracted data yields `ChecksumMismatch`; on a matching checksum the
data and extension are returned. -/
theorem c7_parse_errors (img : RgbImage) (length l seed : Nat) (bs : List Nat)
    (hread : read_bytes img (length + 4) l seed = .ok bs)
    (hlen : bs.length = length + 4)
    (hadq : 2 + bs.getD 4 0 ≤ length) :
    (validUtf8 ((bs.drop 5).take (bs.getD 4 0)) = false →
      extract_payload img length l seed = .err .payloadParse)
    ∧ (validUtf8 ((bs.drop 5).take (bs.getD 4 0)) = true →
      Hash.fromRepr (bs.getD (5 + bs.getD 4 0) 0) = none →
      extract_payload img length l seed = .err .hashFlagParse)
    ∧ (∀ hh : Hash, validUtf8 ((bs.drop 5).take (bs.getD 4 0)) = true →
      Hash.fromRepr (bs.getD (5 + bs.getD 4 0) 0) = some hh →
      outputSize hh ≤ length - 2 - bs.getD 4 0 →
      ((hashBytes hh ((bs.drop (6 + bs.getD 4 0)).drop (outputSize hh))
          ≠ (bs.drop (6 + bs.getD 4 0)).take (outputSize hh) →
        extract_payload img length l seed = .err .checksumMismatch)
      ∧ (hashBytes hh ((bs.drop (6 + bs.getD 4 0)).drop (outputSize hh))
          = (bs.drop (6 + bs.getD 4 0)).take (outputSize hh) →
        extract_payload img length l seed
          = .ok ((bs.drop (6 + bs.getD 4 0)).drop (outputSize hh),
              (bs.drop 5).take (bs.getD 4 0))))) :=
  extract_payload_parse img length l seed bs hread hlen hadq

theorem c7_parse_errors_witness :
    extract_payload (zeroImage 13 1) 35 8 42 = .err .checksumMismatch := by
  have hread : read_bytes (zeroImage 13 1) (35 + 4) 8 42
      = .ok (List.replicate 39 0) :=
    read_zero 13 1 39 8 42 (by decide) (by decide) (by decide) (by decide) (by decide)
  have hmain := c7_parse_errors (zeroImage 13 1) 35 8 42 (List.replicate 39 0) hread
    (by decide) (by decide)
  exact (hmain.2.2 .blake3 (by decide) (by decide) (by decide)).1 (by decide)

/-- Claim C8: with valid parameters and a well-formed frame, embed
proceeds to write exactly when `total_bits` is at most `capacity_bits`: at
`total_bits = capacity_bits` the embedding succeeds, and past the capacity
it returns `InsufficientCapacity` (the witness hits
`total_bits = capacity_bits + 1` exactly). -/
theorem c8_capacity_boundary (input ext : List Nat) (image : RgbImage) (l : Nat)
    (h : Hash) (seed : Nat) (fmt : ImageFormat)
    (hl1 : 1 ≤ l) (hl8 : l ≤ 8)
    (hfmt : LOSSLESS_FORMATS.contains fmt = true)
    (hext255 : ext.length ≤ 255)
    (hpl : 2 + ext.length + outputSize h + input.length < 2 ^ 32)
    (htb : (4 + (2 + ext.length + outputSize h + input.length)) * BITS_PER_BYTE < USIZE)
    (hnw : imageLen image * l < USIZE) :
    ((4 + (2 + ext.length + outputSize h + input.length)) * BITS_PER_BYTE
        ≤ imageLen image * l →
      embed input ext image l h seed fmt
        = .ok (embed_bytes image (framedPayload input ext h) l seed))
    ∧ (imageLen image * l
        < (4 + (2 + ext.length + outputSize h + input.length)) * BITS_PER_BYTE →
      embed input ext image l h seed fmt = .error .insufficientCapacity) := by
  have hev := embed_eval input ext image l h seed fmt hl1 hl8 hfmt hext255 hpl htb hnw
  constructor
  · intro hcap
    rw [hev, if_neg (by omega)]
  · intro hover
    rw [hev, if_pos hover]

theorem c8_capacity_boundary_witness :
    embed [0] [] (zeroImage 13 1) 8 .blake3 42 .png
      = .ok (embed_bytes (zeroImage 13 1) (framedPayload [0] [] .blake3) 8 42)
    ∧ embed [0, 0, 0] [] (zeroImage 109 1) 1 .blake3 42 .png
      = .error .insufficientCapacity := by
  constructor
  · exact (c8_capacity_boundary [0] [] (zeroImage 13 1) 8 .blake3 42 .png (by decide)
      (by decide) (by decide) (by decide) (by decide) (by decide) (by decide)).1
      (by decide)
  · exact (c8_capacity_boundary [0, 0, 0] [] (zeroImage 109 1) 1 .blake3 42 .png
      (by decide) (by decide) (by decide) (by decide) (by decide) (by decide)
      (by decide)).2 (by decide)

/-- Claim C9: the embedding write modifies only channel-bit positions
strictly below `lsbs`, and only at the slots among the first `total_bits`
destinations of the permutation: every other bit of the output surface
equals the corresponding bit of the input surface. -/
theorem c9_frame_effect (image : RgbImage) (total : List Nat) (l seed : Nat)
    (hl1 : 1 ≤ l) (hl8 : l ≤ 8)
    (hcap : total.length * BITS_PER_BYTE ≤ imageLen image * l)
    (hnw : imageLen image * l < USIZE)
    (hdata : ∀ i, image.data i < 256) :
    ∀ b k, (l ≤ k ∨ ∀ i, i < total.length * BITS_PER_BYTE →
        idx (generate_order seed (imageLen image * l)) i ≠ b * l + k) →
      ((embed_bytes image total l seed).data b).testBit k
        = (image.data b).testBit k := by
  obtain ⟨_, E2, E3, E4⟩ := embed_bytes_data_spec image total l seed hl1 hl8 hcap hnw
  intro b k hcond
  by_cases hk8 : k < 8
  · rcases hcond with hlk | hnot
    · exact E3 b k hlk hk8
    · exact E2 b k hk8 hnot
  · have h8 : 8 ≤ k := by omega
    have hp : (256 : Nat) ≤ 2 ^ k := by
      calc (256 : Nat) = 2 ^ 8 := rfl
        _ ≤ 2 ^ k := Nat.pow_le_pow_right (by omega) h8
    have hfo : (image.data b).testBit k = false :=
      Nat.testBit_lt_two_pow (by have := hdata b; omega)
    rcases E4 b with he | hlt
    · rw [he]
    · rw [hfo]
      exact Nat.testBit_lt_two_pow (by omega)

theorem c9_frame_effect_witness :
    ((embed_bytes (zeroImage 13 1) (buildOk [0] [] .blake3) 8 42).data 0).testBit 8
      = ((zeroImage 13 1).data 0).testBit 8 :=
  c9_frame_effect (zeroImage 13 1) (buildOk [0] [] .blake3) 8 42 (by decide) (by decide)
    (by decide) (by decide) (by intro i; show (0 : Nat) < 256; decide) 0 8
    (Or.inl (by decide))

/-- Claim C10: extraction never validates `lsbs`: no input makes it return
`InvalidLsbValue`, and with `lsbs = 0` any decodable surface yields
`InsufficientCapacity` (the zero capacity cannot hold the 32 length
bits). -/
theorem c10_no_invalid_lsb (img : RgbImage) (l seed : Nat)
    (hW : img.width < 2 ^ 32) :
    extract img l seed ≠ .err .invalidLsbValue
    ∧ extract img 0 seed = .err .insufficientCapacity := by
  refine ⟨extract_no_invalid img l seed, ?_⟩
  have hlz : extract_length img 0 seed = .error .insufficientCapacity := by
    rw [extract_length]
    by_cases h0 : imageLen img < 4
    · rw [if_pos h0]
    · rw [if_neg h0]
      have hr : read_bytes img 4 0 seed = .error .insufficientCapacity := by
        have e1 : checkedMul img.width EMBEDDABLE_CHANNELS = some (img.width * 3) := by
          rw [checkedMul, EMBEDDABLE_CHANNELS, if_pos (by rw [USIZE]; omega)]
        have e2 : checkedMul (img.width * 3) 0 = some (img.width * 3 * 0) := by
          rw [checkedMul, if_pos (by rw [USIZE]; omega)]
        have e3 : checkedMul (img.width * 3 * 0) img.height
            = some (img.width * 3 * 0 * img.height) := by
          rw [checkedMul]
          rw [if_pos (by rw [USIZE]; simp)]
        have e4 : checkedMul 4 BITS_PER_BYTE = some (4 * BITS_PER_BYTE) := by
          rw [checkedMul, if_pos (by rw [BITS_PER_BYTE, USIZE]; omega)]
        rw [read_bytes]
        simp only [e1, e2, e3, e4]
        rw [if_pos (by rw [BITS_PER_BYTE]; simp)]
      simp only [hr]
  rw [extract]
  simp only [hlz]

theorem c10_no_invalid_lsb_witness :
    extract (zeroImage 1 1) 3 0 ≠ .err .invalidLsbValue
    ∧ extract (zeroImage 1 1) 0 0 = .err .insufficientCapacity :=
  c10_no_invalid_lsb (zeroImage 1 1) 3 0 (by decide)

end Lsb
